import Mathlib

/-!
Shallow embedding of the blokus-python rules engine
(src/core/piece.py, src/core/board.py, src/core/player.py, src/core/game.py)
together with proofs about the frozen claims.

Conventions:
* numpy 2-D arrays become `List (List Nat)` (`Shape` for piece matrices);
  entry access `a[r][c]` becomes `shapeAt` via `List.getD`.
* numpy indexing `board[i, j]` with Python ints becomes `npGet`/`npSet`:
  indices in `[-n, n)` resolve (negative indices wrap), anything else is an
  `IndexError`, modelled by `Option` (`none` = exception).
* `Color` `IntEnum` values become plain `Nat` tags (`0` = EMPTY, `1..4` players).
-/

namespace Blokus

/-- A piece occupancy matrix (`numpy` 2-D array of 0/1 entries). -/
abbrev Shape := List (List Nat)

/-- Model of `shape.shape[0]`: number of rows of the matrix. -/
def shapeH (s : Shape) : Nat := s.length

/-- Model of `shape.shape[1]`: number of columns of the matrix (row 0's length). -/
def shapeW (s : Shape) : Nat := (s.headD []).length

/-- Model of `shape[r, c]` for in-range indices (out of range reads default 0). -/
def shapeAt (s : Shape) (r c : Nat) : Nat := (s.getD r []).getD c 0

/-- A matrix is rectangular: every row has the width of row 0
(true of every numpy 2-D array). -/
def isRectB (s : Shape) : Bool := s.all (fun row => row.length == shapeW s)

/-- Model of `np.rot90(m)`: rotate 90 degrees counter-clockwise.
`rot90(m)[i][j] = m[j][w-1-i]`. -/
def rotCCW (s : Shape) : Shape :=
  (List.range (shapeW s)).map (fun i =>
    (List.range (shapeH s)).map (fun j => shapeAt s j (shapeW s - 1 - i)))

/-- Model of `np.fliplr(m)`: mirror each row left-to-right (`BlokusPiece.flip`). -/
def flipShape (s : Shape) : Shape := s.map List.reverse

/-- Model of `BlokusPiece.rotate(rotations)`: the source computes
`np.rot90(shape, k = 4 - (rotations % 4))` and `np.rot90` takes its count
mod 4, i.e. `(4 - rotations % 4) % 4` single counter-clockwise rotations. -/
def rotateShape (s : Shape) (rotations : Int) : Shape :=
  rotCCW^[((4 - rotations % 4) % 4).toNat] s

/-- One clockwise quarter turn: `rotate(1)` of the source. -/
def rotCW (s : Shape) : Shape := rotateShape s 1

-- Basic facts about `rotCCW`.

theorem length_rotCCW (s : Shape) : (rotCCW s).length = shapeW s := by
  simp [rotCCW]

theorem shapeW_rotCCW (s : Shape) (hw : 0 < shapeW s) :
    shapeW (rotCCW s) = shapeH s := by
  unfold rotCCW shapeW
  obtain ⟨w', hw'⟩ : ∃ w', shapeW s = w' + 1 := ⟨shapeW s - 1, by omega⟩
  simp [shapeW] at hw'
  simp [hw', List.range_succ_eq_map]

theorem rotCCW_row (s : Shape) (i : Nat) (hi : i < shapeW s) :
    (rotCCW s).getD i [] =
      (List.range (shapeH s)).map (fun j => shapeAt s j (shapeW s - 1 - i)) := by
  unfold rotCCW
  rw [List.getD_eq_getElem?_getD, List.getElem?_map, List.getElem?_range hi]
  rfl

theorem rotCCW_row_length (s : Shape) (i : Nat) (hi : i < shapeW s) :
    ((rotCCW s).getD i []).length = shapeH s := by
  rw [rotCCW_row s i hi]; simp

theorem isRectB_rotCCW (s : Shape) : isRectB (rotCCW s) = true := by
  rcases Nat.eq_zero_or_pos (shapeW s) with h0 | hpos
  · simp [rotCCW, h0, isRectB]
  · rw [isRectB, List.all_eq_true]
    intro row hrow
    rw [shapeW_rotCCW s hpos]
    rw [List.mem_iff_getElem] at hrow
    obtain ⟨i, hilt, hrow⟩ := hrow
    rw [length_rotCCW] at hilt
    have hlen := rotCCW_row_length s i hilt
    rw [List.getD_eq_getElem?_getD,
      List.getElem?_eq_getElem (by rw [length_rotCCW]; exact hilt)] at hlen
    simp only [Option.getD_some] at hlen
    rw [← hrow]
    simp [hlen]

theorem shapeAt_rotCCW (s : Shape) (i j : Nat) (hi : i < shapeW s) :
    shapeAt (rotCCW s) i j =
      if j < shapeH s then shapeAt s j (shapeW s - 1 - i) else 0 := by
  rw [shapeAt, rotCCW_row s i hi]
  by_cases hj : j < shapeH s
  · rw [List.getD_eq_getElem?_getD, List.getElem?_map, List.getElem?_range hj]
    simp [hj]
  · rw [List.getD_eq_getElem?_getD, List.getElem?_map,
      List.getElem?_eq_none (by simpa [Nat.not_lt] using hj)]
    simp [hj]

theorem getDlt {α : Type} (l : List α) (d : α) (i : Nat) (h : i < l.length) :
    l.getD i d = l[i] := by
  rw [List.getD_eq_getElem?_getD, List.getElem?_eq_getElem h]; rfl

theorem rect_row_len (s : Shape) (hrect : isRectB s = true) (i : Nat)
    (hi : i < shapeH s) : (s.getD i []).length = shapeW s := by
  rw [isRectB, List.all_eq_true] at hrect
  have hm : s[i] ∈ s := List.getElem_mem hi
  have := hrect _ hm
  rw [getDlt s [] i hi]
  simpa using this

theorem shapeH_pos (s : Shape) (hw : 0 < shapeW s) : 0 < shapeH s := by
  cases s with
  | nil => simp [shapeW] at hw
  | cons a t => simp [shapeH]

theorem shapeW_rotCCW_pos (s : Shape) (hrect : isRectB s = true)
    (hw : 0 < shapeW s) : 0 < shapeW (rotCCW s) := by
  rw [shapeW_rotCCW s hw]; exact shapeH_pos s hw

/-- Extensionality for matrices: equal dimensions and equal entries. -/
theorem shape_ext (a b : Shape) (hlen : a.length = b.length)
    (hrow : ∀ i, i < a.length → (a.getD i []).length = (b.getD i []).length)
    (hat : ∀ i j, i < a.length → j < (a.getD i []).length →
      shapeAt a i j = shapeAt b i j) : a = b := by
  apply List.ext_getElem hlen
  intro i h1 h2
  apply List.ext_getElem
  · have := hrow i h1
    rwa [getDlt a [] i h1, getDlt b [] i h2] at this
  · intro j hj1 hj2
    have := hat i j h1 (by rw [getDlt a [] i h1]; exact hj1)
    rw [shapeAt, shapeAt, getDlt a [] i h1, getDlt b [] i h2,
      getDlt _ _ j hj1, getDlt _ _ j hj2] at this
    exact this

theorem shapeAt_rot2 (s : Shape) (hrect : isRectB s = true) (hw : 0 < shapeW s)
    (i j : Nat) (hi : i < shapeH s) (hj : j < shapeW s) :
    shapeAt (rotCCW (rotCCW s)) i j =
      shapeAt s (shapeH s - 1 - i) (shapeW s - 1 - j) := by
  have hh : 0 < shapeH s := shapeH_pos s hw
  rw [shapeAt_rotCCW (rotCCW s) i j (by rw [shapeW_rotCCW s hw]; exact hi)]
  have hjh : j < shapeH (rotCCW s) := by
    rw [shapeH, length_rotCCW]; exact hj
  rw [if_pos hjh, shapeAt_rotCCW s j _ hj, shapeW_rotCCW s hw]
  rw [if_pos (by omega)]

theorem dims_rot2 (s : Shape) (hrect : isRectB s = true) (hw : 0 < shapeW s) :
    shapeH (rotCCW (rotCCW s)) = shapeH s ∧
      shapeW (rotCCW (rotCCW s)) = shapeW s ∧
      isRectB (rotCCW (rotCCW s)) = true ∧ 0 < shapeW (rotCCW (rotCCW s)) := by
  have hh : 0 < shapeH s := shapeH_pos s hw
  have h1 : shapeH (rotCCW s) = shapeW s := by rw [shapeH, length_rotCCW]
  have h2 : shapeW (rotCCW s) = shapeH s := shapeW_rotCCW s hw
  refine ⟨?_, ?_, isRectB_rotCCW _, ?_⟩
  · rw [shapeH, length_rotCCW, h2]
  · rw [shapeW_rotCCW _ (by rw [h2]; exact hh), h1]
  · rw [shapeW_rotCCW _ (by rw [h2]; exact hh), h1]; exact hw

/-- Four quarter turns are the identity on a (nonempty) rectangular matrix. -/
theorem rotCCW_four (s : Shape) (hrect : isRectB s = true) (hw : 0 < shapeW s) :
    rotCCW (rotCCW (rotCCW (rotCCW s))) = s := by
  have hh : 0 < shapeH s := shapeH_pos s hw
  obtain ⟨d1, d2, d3, d4⟩ := dims_rot2 s hrect hw
  obtain ⟨e1, e2, e3, e4⟩ := dims_rot2 _ d3 d4
  apply shape_ext
  · show shapeH _ = shapeH s
    rw [e1, d1]
  · intro i hi
    have hi' : i < shapeH s := by
      have : shapeH (rotCCW (rotCCW (rotCCW (rotCCW s)))) = shapeH s := by
        rw [e1, d1]
      rw [shapeH] at this; omega
    rw [rect_row_len _ e3 i (by rw [e1, d1]; exact hi'),
      rect_row_len s hrect i hi', e2, d2]
  · intro i j hi hj
    have hi' : i < shapeH s := by
      have : shapeH (rotCCW (rotCCW (rotCCW (rotCCW s)))) = shapeH s := by
        rw [e1, d1]
      rw [shapeH] at this; omega
    have hj' : j < shapeW s := by
      have := rect_row_len _ e3 i (by rw [e1, d1]; exact hi')
      rw [this, e2, d2] at hj; exact hj
    rw [shapeAt_rot2 _ d3 d4 i j (by rw [d1]; exact hi') (by rw [d2]; exact hj')]
    rw [d1, d2]
    rw [shapeAt_rot2 s hrect hw _ _ (by omega) (by omega)]
    congr 1 <;> omega

theorem rotCCW_four_iter (s : Shape) (hrect : isRectB s = true)
    (hw : 0 < shapeW s) : rotCCW^[4] s = s :=
  rotCCW_four s hrect hw

/-- C8: for every (rectangular, nonempty) piece matrix, `rotate(k)` for
`k ∈ [0,3]` produces the same matrix as `k` successive `rotate(1)` calls,
four successive `rotate(1)` calls return the matrix to its starting value,
and `rotate(k)` for `k` any multiple of 4 (including 0) is the identity. -/
theorem claim_C8_rotation_cycle (s : Shape) (hrect : isRectB s = true)
    (hw : 0 < shapeW s) :
    (∀ k : Nat, k ≤ 3 → rotateShape s (k : Int) = rotCW^[k] s) ∧
      rotCW^[4] s = s ∧ (∀ j : Int, rotateShape s (4 * j) = s) := by
  have h4 : rotCCW (rotCCW (rotCCW (rotCCW s))) = s := rotCCW_four s hrect hw
  refine ⟨?_, ?_, ?_⟩
  · intro k hk
    interval_cases k
    · rfl
    · rfl
    · show rotCCW (rotCCW s) =
        rotCCW (rotCCW (rotCCW (rotCCW (rotCCW (rotCCW s)))))
      rw [h4]
    · show rotCCW s =
        rotCCW (rotCCW (rotCCW (rotCCW (rotCCW (rotCCW (rotCCW (rotCCW
          (rotCCW s))))))))
      rw [h4, h4]
  · show rotCCW (rotCCW (rotCCW (rotCCW (rotCCW (rotCCW (rotCCW (rotCCW
      (rotCCW (rotCCW (rotCCW (rotCCW s))))))))))) = s
    rw [h4, h4, h4]
  · intro j
    have hmod : (4 * j) % 4 = 0 := Int.mul_emod_right 4 j
    rw [rotateShape, hmod]
    rfl

/-- Witness for C8 at the V3 tromino shape. -/
theorem claim_C8_rotation_cycle_witness :
    isRectB [[1, 0], [1, 1]] = true ∧ 0 < shapeW [[1, 0], [1, 1]] ∧
      ((∀ k : Nat, k ≤ 3 →
          rotateShape [[1, 0], [1, 1]] (k : Int) = rotCW^[k] [[1, 0], [1, 1]]) ∧
        rotCW^[4] [[1, 0], [1, 1]] = [[1, 0], [1, 1]] ∧
        (∀ j : Int, rotateShape [[1, 0], [1, 1]] (4 * j) = [[1, 0], [1, 1]])) :=
  ⟨by decide, by decide,
    claim_C8_rotation_cycle [[1, 0], [1, 1]] (by decide) (by decide)⟩

/-- The mutable state of a `BlokusPiece`: current matrix, saved original
matrix, and the cached `_height`/`_width` fields. -/
structure PieceSt where
  shape : Shape
  originalShape : Shape
  height : Nat
  width : Nat
deriving DecidableEq

/-- Model of `BlokusPiece.rotate(rotations)`: rotate the current matrix in place and
recompute the cached dimensions. -/
def rotatePieceSt (p : PieceSt) (rotations : Int) : PieceSt :=
  let s := rotateShape p.shape rotations
  { p with shape := s, height := shapeH s, width := shapeW s }

/-- Model of `BlokusPiece.flip()`: mirror the current matrix left-to-right in place
(the source does not touch `_height`/`_width` here). -/
def flipPieceSt (p : PieceSt) : PieceSt :=
  { p with shape := flipShape p.shape }

/-- One step of the `seen_shapes` dedup in `get_all_orientations`: append the
matrix only if it was not collected yet. -/
def dedupStep (acc : List Shape) (sh : Shape) : List Shape :=
  if sh ∈ acc then acc else acc ++ [sh]

/-- The successive working-piece states visited by `get_all_orientations`:
flip ∈ {False, True} × rotation ∈ {0,1,2,3}, mutating one piece in place.
The flip pass starts from the thrice-rotated state, as in the source. -/
def gaoStates (p : PieceSt) : List PieceSt :=
  let p0 := p
  let p1 := rotatePieceSt p0 1
  let p2 := rotatePieceSt p1 1
  let p3 := rotatePieceSt p2 1
  let q0 := flipPieceSt p3
  let q1 := rotatePieceSt q0 1
  let q2 := rotatePieceSt q1 1
  let q3 := rotatePieceSt q2 1
  [p0, p1, p2, p3, q0, q1, q2, q3]

/-- Model of `BlokusPiece.get_all_orientations`: collect the distinct matrices seen
along `gaoStates` in encounter order, then restore the saved matrix and
recompute the dimensions.  Returns the collected list and the final piece
state. -/
def getAllOrientationsM (p : PieceSt) : List Shape × PieceSt :=
  let original := p.shape
  let orientations := ((gaoStates p).map PieceSt.shape).foldl dedupStep []
  (orientations,
    { (gaoStates p).getLastD p with
      shape := original,
      height := shapeH original,
      width := shapeW original })

theorem dedupStep_foldl_length (l : List Shape) :
    ∀ acc : List Shape, (l.foldl dedupStep acc).length ≤ acc.length + l.length := by
  induction l with
  | nil => intro acc; simp
  | cons x t ih =>
    intro acc
    have h1 : (dedupStep acc x).length ≤ acc.length + 1 := by
      rw [dedupStep]; split <;> simp
    have := ih (dedupStep acc x)
    simp only [List.foldl_cons, List.length_cons]
    omega

theorem dedupStep_foldl_nodup (l : List Shape) :
    ∀ acc : List Shape, acc.Nodup → (l.foldl dedupStep acc).Nodup := by
  induction l with
  | nil => intro acc h; simpa using h
  | cons x t ih =>
    intro acc h
    refine ih _ ?_
    rw [dedupStep]
    split
    · exact h
    · rename_i hnm
      refine List.nodup_append.mpr ⟨h, List.nodup_singleton x, fun a ha hax => ?_⟩
      rw [List.mem_singleton] at hax
      exact hnm (hax ▸ ha)

/-- C9: `get_all_orientations` returns at most 8 matrices, no two of them
structurally equal, restores the piece's current matrix and cached
dimensions, and returns exactly one entry for the 1×1 single-cell shape and
for the 2×2 full-square shape. -/
theorem claim_C9_orientations (p : PieceSt)
    (hh : p.height = shapeH p.shape) (hw : p.width = shapeW p.shape) :
    ((getAllOrientationsM p).1.length ≤ 8 ∧ (getAllOrientationsM p).1.Nodup ∧
      (getAllOrientationsM p).2 = p) ∧
      (getAllOrientationsM ⟨[[1]], [[1]], 1, 1⟩).1.length = 1 ∧
      (getAllOrientationsM ⟨[[1, 1], [1, 1]], [[1, 1], [1, 1]], 2, 2⟩).1.length
        = 1 := by
  refine ⟨⟨?_, ?_, ?_⟩, by decide, by decide⟩
  · have h1 := dedupStep_foldl_length ((gaoStates p).map PieceSt.shape) []
    have h2 : ((gaoStates p).map PieceSt.shape).length = 8 := by
      simp [gaoStates]
    simp only [getAllOrientationsM]
    simp only [List.length_nil, Nat.zero_add, h2] at h1
    exact h1
  · simp only [getAllOrientationsM]
    exact dedupStep_foldl_nodup _ [] List.nodup_nil
  · cases p with
    | mk sh orig h w =>
      dsimp only at hh hw
      subst hh; subst hw
      simp only [getAllOrientationsM, gaoStates, rotatePieceSt, flipPieceSt]
      simp

/-- Witness for C9 at the monomino piece state. -/
theorem claim_C9_orientations_witness :
    (1 : Nat) = shapeH [[1]] ∧ (1 : Nat) = shapeW [[1]] ∧
      (((getAllOrientationsM ⟨[[1]], [[1]], 1, 1⟩).1.length ≤ 8 ∧
        (getAllOrientationsM ⟨[[1]], [[1]], 1, 1⟩).1.Nodup ∧
        (getAllOrientationsM ⟨[[1]], [[1]], 1, 1⟩).2 = ⟨[[1]], [[1]], 1, 1⟩) ∧
        (getAllOrientationsM ⟨[[1]], [[1]], 1, 1⟩).1.length = 1 ∧
        (getAllOrientationsM
          ⟨[[1, 1], [1, 1]], [[1, 1], [1, 1]], 2, 2⟩).1.length = 1) :=
  ⟨by decide, by decide,
    claim_C9_orientations ⟨[[1]], [[1]], 1, 1⟩ (by decide) (by decide)⟩

/-! ## Board model (src/core/board.py)

Cell values are the `Color` `IntEnum` tags: 0 = EMPTY, 1 = BLUE, 2 = YELLOW,
3 = RED, 4 = GREEN. -/

/-- Model of `BlokusBoard`: side length and the grid contents (meaningful on
`[0, size) × [0, size)`). -/
structure Board where
  size : Nat
  grid : Nat → Nat → Nat

/-- numpy index resolution for one axis: indices in `[0, n)` are themselves,
indices in `[-n, 0)` wrap to `n + i`, anything else raises `IndexError`
(modelled as `none`). -/
def npIdx (n : Nat) (i : Int) : Option Nat :=
  if 0 ≤ i ∧ i < (n : Int) then some i.toNat
  else if -(n : Int) ≤ i ∧ i < 0 then some (i + n).toNat
  else none

/-- Model of `board[i, j]` read with numpy semantics. -/
def npGet (b : Board) (i j : Int) : Option Nat :=
  match npIdx b.size i, npIdx b.size j with
  | some r, some c => some (b.grid r c)
  | _, _ => none

/-- Model of `board[i, j] = v` write with numpy semantics. -/
def npSet (b : Board) (i j : Int) (v : Nat) : Option Board :=
  match npIdx b.size i, npIdx b.size j with
  | some r, some c =>
    some { b with grid := fun x y => if x = r ∧ y = c then v else b.grid x y }
  | _, _ => none

/-- Model of `BlokusBoard.is_on_board`. -/
def isOnBoard (b : Board) (i j : Int) : Bool :=
  decide (0 ≤ i ∧ i < (b.size : Int) ∧ 0 ≤ j ∧ j < (b.size : Int))

/-- Model of `BlokusBoard.get_corners()`: the four board corners. -/
def boardCornersList (b : Board) : List (Nat × Nat) :=
  [(0, 0), (0, b.size - 1), (b.size - 1, 0), (b.size - 1, b.size - 1)]

/-- The filled piece offsets visited by the placement loops, in the source's
row-major order (`for r: for c: if shape[r, c] == 1`). -/
def filledCells (s : Shape) : List (Nat × Nat) :=
  (List.range (shapeH s)).flatMap (fun r =>
    (List.range (shapeW s)).filterMap (fun c =>
      if shapeAt s r c = 1 then some (r, c) else none))

/-- Check 1 of `is_valid_placement`: the bounding box does not overrun the
upper board edges (the source tests only `p_row + h > size or
p_col + w > size`). -/
def fitsB (b : Board) (s : Shape) (pr pc : Int) : Bool :=
  !(decide (pr + (shapeH s : Int) > (b.size : Int)) ||
    decide (pc + (shapeW s : Int) > (b.size : Int)))

/-- Check 2 of `is_valid_placement`: every filled cell must read an EMPTY
grid cell; the read uses raw numpy indexing and can raise. -/
def overlapCheck (b : Board) (s : Shape) (pr pc : Int) : Option Bool :=
  (filledCells s).allM (fun rc =>
    (npGet b (pr + rc.1) (pc + rc.2)).map (fun v => v == 0))

/-- Check 3 of `is_valid_placement`: some filled cell lands on a board
corner. -/
def coversCornerB (b : Board) (s : Shape) (pr pc : Int) : Bool :=
  (filledCells s).any (fun rc =>
    (boardCornersList b).any (fun q =>
      pr + rc.1 == (q.1 : Int) && pc + rc.2 == (q.2 : Int)))

/-- The four diagonal neighbour coordinates of a board cell. -/
def diagNeighbors (r c : Int) : List (Int × Int) :=
  [(r - 1, c - 1), (r - 1, c + 1), (r + 1, c - 1), (r + 1, c + 1)]

/-- The four orthogonal neighbour coordinates of a board cell. -/
def sideNeighbors (r c : Int) : List (Int × Int) :=
  [(r - 1, c), (r + 1, c), (r, c - 1), (r, c + 1)]

/-- An on-board neighbour cell holding the player's own colour (the guarded
read `is_on_board(q) and board[q] == player_value`). -/
def ownAt (b : Board) (pv : Nat) (q : Int × Int) : Bool :=
  isOnBoard b q.1 q.2 && b.grid q.1.toNat q.2.toNat == pv

/-- Check 4, first flag: some filled cell has a diagonal on-board neighbour
of the player's colour. -/
def touchesCornerB (b : Board) (s : Shape) (pr pc : Int) (pv : Nat) : Bool :=
  (filledCells s).any (fun rc =>
    (diagNeighbors (pr + rc.1) (pc + rc.2)).any (ownAt b pv))

/-- Check 4, second flag: some filled cell has an orthogonal on-board
neighbour of the player's colour. -/
def touchesSideB (b : Board) (s : Shape) (pr pc : Int) (pv : Nat) : Bool :=
  (filledCells s).any (fun rc =>
    (sideNeighbors (pr + rc.1) (pc + rc.2)).any (ownAt b pv))

/-- Model of `BlokusBoard.is_valid_placement(piece, (pr, pc), player_value,
is_first_move)`.  `none` models an uncaught `IndexError` from check 2's raw
grid reads. -/
def isValidPlacement (b : Board) (s : Shape) (pr pc : Int) (pv : Nat)
    (isFirstMove : Bool) : Option Bool :=
  if !(fitsB b s pr pc) then some false
  else
    match overlapCheck b s pr pc with
    | none => none
    | some false => some false
    | some true =>
      if isFirstMove then some (coversCornerB b s pr pc)
      else some (touchesCornerB b s pr pc pv && !(touchesSideB b s pr pc pv))

/-- Model of `BlokusBoard.place_piece`: unconditionally write the filled offsets with
the player's colour tag (raw numpy writes, so the same wrap/raise indexing
as the reads). -/
def placePiece (b : Board) (s : Shape) (pr pc : Int) (pv : Nat) :
    Option Board :=
  (filledCells s).foldlM (fun bb rc => npSet bb (pr + rc.1) (pc + rc.2) pv) b

/-- The anchor classification of `get_player_corners`: empty cell, at least
one diagonal own-colour neighbour, no orthogonal own-colour neighbour. -/
def isAnchorB (b : Board) (pv : Nat) (r c : Nat) : Bool :=
  b.grid r c == 0 &&
    (diagNeighbors (r : Int) (c : Int)).any (ownAt b pv) &&
    !((sideNeighbors (r : Int) (c : Int)).any (ownAt b pv))

/-- Model of `BlokusBoard.get_player_corners`: scan the whole grid for anchors. -/
def getPlayerCorners (b : Board) (pv : Nat) : List (Nat × Nat) :=
  (List.range b.size).flatMap (fun r =>
    (List.range b.size).filterMap (fun c =>
      if isAnchorB b pv r c then some (r, c) else none))

/-- Python `range(lo, hi)` for integer bounds with `lo ≥ 0`, as a list of
naturals. -/
def intRange (lo hi : Int) : List Nat :=
  (List.range (hi - lo).toNat).map (fun k => lo.toNat + k)

/-- The candidate top-left positions generated for one anchor in
`find_valid_placements`: every `(r, c)` whose bounding box could cover the
anchor, clipped to the board. -/
def candidatesFor (n : Nat) (s : Shape) (cr cc : Nat) : List (Nat × Nat) :=
  let h := (shapeH s : Int)
  let w := (shapeW s : Int)
  (intRange (max 0 ((cr : Int) - h + 1)) (min ((cr : Int) + 1) ((n : Int) - h + 1))).flatMap
    (fun r =>
      (intRange (max 0 ((cc : Int) - w + 1)) (min ((cc : Int) + 1) ((n : Int) - w + 1))).map
        (fun c => (r, c)))

/-- Model of `BlokusBoard.find_valid_placements`: candidate generation (board corners
for a first move, anchor neighbourhoods otherwise) followed by the
`is_valid_placement` filter.  The Python function returns a set; here
membership in the returned list is the set.  On every generated candidate
the placement check cannot raise (`isValidPlacement_nat` below), so
filtering on `== some true` is faithful. -/
def findValidPlacements (b : Board) (s : Shape) (pv : Nat)
    (isFirstMove : Bool) : List (Nat × Nat) :=
  let positionsToCheck :=
    if isFirstMove then boardCornersList b
    else (getPlayerCorners b pv).flatMap (fun a => candidatesFor b.size s a.1 a.2)
  positionsToCheck.filter (fun q =>
    isValidPlacement b s q.1 q.2 pv isFirstMove == some true)

/-! ### Characterisation of the placement check at non-negative positions -/

/-- The overlap test as a pure predicate, for a top-left position inside the
grid. -/
def noOverlapB (b : Board) (s : Shape) (r c : Nat) : Bool :=
  (filledCells s).all (fun rc => b.grid (r + rc.1) (c + rc.2) == 0)

/-- Model of `is_valid_placement` as a pure predicate, for a non-negative top-left
position (where check 2 cannot raise). -/
def isValidPlacementB (b : Board) (s : Shape) (r c : Nat) (pv : Nat)
    (first : Bool) : Bool :=
  fitsB b s (r : Int) (c : Int) &&
    (noOverlapB b s r c &&
      (if first then coversCornerB b s (r : Int) (c : Int)
       else touchesCornerB b s (r : Int) (c : Int) pv &&
         !(touchesSideB b s (r : Int) (c : Int) pv)))

theorem filledCells_mem (s : Shape) (i j : Nat) :
    (i, j) ∈ filledCells s ↔
      i < shapeH s ∧ j < shapeW s ∧ shapeAt s i j = 1 := by
  simp only [filledCells, List.mem_flatMap, List.mem_filterMap, List.mem_range]
  constructor
  · rintro ⟨r, hr, c, hc, hif⟩
    split at hif
    · rename_i hone
      cases hif
      exact ⟨hr, hc, hone⟩
    · exact absurd hif (by simp)
  · rintro ⟨hi, hj, hone⟩
    exact ⟨i, hi, j, hj, by rw [if_pos hone]⟩

theorem fitsB_nat_iff (b : Board) (s : Shape) (r c : Nat) :
    fitsB b s (r : Int) (c : Int) = true ↔
      r + shapeH s ≤ b.size ∧ c + shapeW s ≤ b.size := by
  simp only [fitsB, Bool.not_eq_true', Bool.or_eq_false_iff, decide_eq_false_iff_not]
  omega

theorem npIdx_coe (n k : Nat) (h : k < n) : npIdx n (k : Int) = some k := by
  have h1 : (0 : Int) ≤ (k : Int) ∧ (k : Int) < (n : Int) := by omega
  simp [npIdx, h1]

theorem npGet_coe (b : Board) (r c : Nat) (hr : r < b.size) (hc : c < b.size) :
    npGet b (r : Int) (c : Int) = some (b.grid r c) := by
  rw [npGet, npIdx_coe _ _ hr, npIdx_coe _ _ hc]

theorem allM_option_eq {α : Type} (l : List α) (f : α → Option Bool)
    (g : α → Bool) (h : ∀ x ∈ l, f x = some (g x)) :
    l.allM f = some (l.all g) := by
  induction l with
  | nil => rfl
  | cons x t ih =>
    have hx := h x (List.mem_cons_self x t)
    have ht := ih (fun y hy => h y (List.mem_cons_of_mem x hy))
    cases hgx : g x with
    | false =>
      rw [hgx] at hx
      simp [List.allM, hx, List.all_cons, hgx]
    | true =>
      rw [hgx] at hx
      simp [List.allM, hx, List.all_cons, hgx, ht]

theorem overlapCheck_nat (b : Board) (s : Shape) (r c : Nat)
    (hfit : fitsB b s (r : Int) (c : Int) = true) :
    overlapCheck b s (r : Int) (c : Int) = some (noOverlapB b s r c) := by
  obtain ⟨hh, hw⟩ := (fitsB_nat_iff b s r c).mp hfit
  rw [overlapCheck, noOverlapB]
  apply allM_option_eq
  intro rc hrc
  cases rc with
  | mk i j =>
    rw [filledCells_mem] at hrc
    have h1 : (r : Int) + (i : Int) = ((r + i : Nat) : Int) := by push_cast; ring
    have h2 : (c : Int) + (j : Int) = ((c + j : Nat) : Int) := by push_cast; ring
    rw [h1, h2, npGet_coe b _ _ (by omega) (by omega)]
    rfl

/-- At a non-negative top-left position the placement check is total and
agrees with the pure predicate. -/
theorem isValidPlacement_nat (b : Board) (s : Shape) (r c : Nat) (pv : Nat)
    (first : Bool) :
    isValidPlacement b s (r : Int) (c : Int) pv first =
      some (isValidPlacementB b s r c pv first) := by
  by_cases hfit : fitsB b s (r : Int) (c : Int) = true
  · rw [isValidPlacement, isValidPlacementB, hfit]
    rw [overlapCheck_nat b s r c hfit]
    cases hno : noOverlapB b s r c with
    | false => simp
    | true => cases first <;> simp
  · rw [isValidPlacement, isValidPlacementB]
    rw [Bool.not_eq_true] at hfit
    rw [hfit]
    simp

theorem getPlayerCorners_mem (b : Board) (pv : Nat) (i j : Nat) :
    (i, j) ∈ getPlayerCorners b pv ↔
      i < b.size ∧ j < b.size ∧ isAnchorB b pv i j = true := by
  simp only [getPlayerCorners, List.mem_flatMap, List.mem_filterMap,
    List.mem_range]
  constructor
  · rintro ⟨r, hr, c, hc, hif⟩
    split at hif
    · rename_i ha
      cases hif
      exact ⟨hr, hc, ha⟩
    · exact absurd hif (by simp)
  · rintro ⟨hi, hj, ha⟩
    exact ⟨i, hi, j, hj, by rw [if_pos ha]⟩

theorem intRange_mem (lo hi : Int) (k : Nat) (hlo : 0 ≤ lo) :
    k ∈ intRange lo hi ↔ lo ≤ (k : Int) ∧ (k : Int) < hi := by
  simp only [intRange, List.mem_map, List.mem_range]
  constructor
  · rintro ⟨m, hm, rfl⟩
    omega
  · intro ⟨h1, h2⟩
    refine ⟨k - lo.toNat, by omega, by omega⟩

theorem candidatesFor_mem (n : Nat) (s : Shape) (cr cc r c : Nat) :
    (r, c) ∈ candidatesFor n s cr cc ↔
      (cr < r + shapeH s ∧ r ≤ cr ∧ r + shapeH s ≤ n) ∧
        (cc < c + shapeW s ∧ c ≤ cc ∧ c + shapeW s ≤ n) := by
  simp only [candidatesFor, List.mem_flatMap, List.mem_map]
  constructor
  · rintro ⟨r', hr', c', hc', heq⟩
    cases heq
    rw [intRange_mem _ _ _ (le_max_left 0 _)] at hr' hc'
    constructor
    · constructor
      · have := hr'.1
        omega
      · have := hr'.2
        omega
    · constructor
      · have := hc'.1
        omega
      · have := hc'.2
        omega
  · rintro ⟨⟨h1, h2, h3⟩, h4, h5, h6⟩
    refine ⟨r, ?_, c, ?_, rfl⟩
    · rw [intRange_mem _ _ _ (le_max_left 0 _)]
      omega
    · rw [intRange_mem _ _ _ (le_max_left 0 _)]
      omega

/-- C1: for every piece, player colour, and board state, the set returned by
`find_valid_placements(piece, color, False)` is exactly the set of
non-negative positions accepted by `is_valid_placement`: membership in the
returned collection is equivalent to the placement check succeeding. -/
theorem claim_C1_find_valid_placements (b : Board) (s : Shape) (pv : Nat)
    (r c : Nat) :
    (r, c) ∈ findValidPlacements b s pv false ↔
      isValidPlacement b s (r : Int) (c : Int) pv false = some true := by
  constructor
  · intro hmem
    rw [findValidPlacements] at hmem
    simp only [if_neg (Bool.false_ne_true)] at hmem
    have := (List.mem_filter.mp hmem).2
    simpa using this
  · intro hvalid
    rw [findValidPlacements]
    simp only [if_neg (Bool.false_ne_true)]
    rw [List.mem_filter]
    refine ⟨?_, by simpa using hvalid⟩
    -- decompose validity into its four component facts
    rw [isValidPlacement_nat] at hvalid
    have hB : isValidPlacementB b s r c pv false = true := by
      injection hvalid
    rw [isValidPlacementB, Bool.and_eq_true, Bool.and_eq_true] at hB
    obtain ⟨hfit, hov, hrest⟩ := hB
    rw [if_neg (Bool.false_ne_true), Bool.and_eq_true, Bool.not_eq_true'] at hrest
    obtain ⟨htc, hts⟩ := hrest
    obtain ⟨hsizeH, hsizeW⟩ := (fitsB_nat_iff b s r c).mp hfit
    -- extract a filled cell witnessing the diagonal own-colour contact
    rw [touchesCornerB, List.any_eq_true] at htc
    obtain ⟨rc, hrcmem, hdiag⟩ := htc
    cases rc with
    | mk i j =>
      have hfc := (filledCells_mem s i j).mp hrcmem
      obtain ⟨hih, hjw, hone⟩ := hfc
      -- the board cell under that filled cell is an anchor
      have hcast1 : (r : Int) + (i : Int) = ((r + i : Nat) : Int) := by
        push_cast; ring
      have hcast2 : (c : Int) + (j : Int) = ((c + j : Nat) : Int) := by
        push_cast; ring
      have hanchor : isAnchorB b pv (r + i) (c + j) = true := by
        rw [isAnchorB, Bool.and_eq_true, Bool.and_eq_true]
        refine ⟨⟨?_, ?_⟩, ?_⟩
        · -- empty: from the no-overlap check at this filled cell
          rw [noOverlapB, List.all_eq_true] at hov
          exact hov (i, j) hrcmem
        · -- diagonal contact: the same neighbour list
          rw [← hcast1, ← hcast2]
          exact hdiag
        · -- no orthogonal own-colour contact: from touches_own_side = False
          rw [touchesSideB] at hts
          rw [Bool.not_eq_true']
          by_contra hside
          rw [Bool.not_eq_false] at hside
          have : (filledCells s).any (fun rc =>
              (sideNeighbors ((r : Int) + rc.1) ((c : Int) + rc.2)).any
                (ownAt b pv)) = true := by
            rw [List.any_eq_true]
            exact ⟨(i, j), hrcmem, by rw [hcast1, hcast2]; exact hside⟩
          rw [this] at hts
          exact absurd hts (by simp)
      have hmemc : (r + i, c + j) ∈ getPlayerCorners b pv := by
        rw [getPlayerCorners_mem]
        exact ⟨by omega, by omega, hanchor⟩
      rw [List.mem_flatMap]
      refine ⟨(r + i, c + j), hmemc, ?_⟩
      rw [candidatesFor_mem]
      exact ⟨⟨by omega, by omega, by omega⟩, by omega, by omega, by omega⟩

/-- An empty board of side `n` (`BlokusBoard.reset`). -/
def emptyBoard (n : Nat) : Board := ⟨n, fun _ _ => 0⟩

/-- C2 (failing input): on the empty size-20 board, placing the domino
`[[1,1]]` with its top-left at `(0, -1)` has a bounding box that does not
lie within the grid (its first column is -1), yet `is_valid_placement`
returns True: the only bounds test is against the upper edges, and the raw
numpy read of column -1 wraps around to column 19.  The claim (and the
spec's bounds rule) requires False here. -/
theorem claim_C2_bounds_failing_input :
    isValidPlacement (emptyBoard 20) [[1, 1]] 0 (-1) 1 true = some true ∧
      ((-1 : Int) < 0 ∧ (0 : Int) + (shapeH [[1, 1]] : Int) ≤ 20 ∧
        (-1 : Int) + (shapeW [[1, 1]] : Int) ≤ 20) := by
  refine ⟨?_, by decide⟩
  decide

/-- Propositional form of the `touches_corner` flag of check 4. -/
theorem touchesCornerB_iff (b : Board) (s : Shape) (r c pv : Nat) :
    touchesCornerB b s (r : Int) (c : Int) pv = true ↔
      (∃ i j, i < shapeH s ∧ j < shapeW s ∧ shapeAt s i j = 1 ∧
        ∃ q ∈ diagNeighbors ((r : Int) + i) ((c : Int) + j),
          ownAt b pv q = true) := by
  rw [touchesCornerB, List.any_eq_true]
  constructor
  · rintro ⟨⟨i, j⟩, hmem, hq⟩
    obtain ⟨hi, hj, hone⟩ := (filledCells_mem s i j).mp hmem
    exact ⟨i, j, hi, hj, hone, by simpa [List.any_eq_true] using hq⟩
  · rintro ⟨i, j, hi, hj, hone, q, hqmem, hq⟩
    exact ⟨(i, j), (filledCells_mem s i j).mpr ⟨hi, hj, hone⟩,
      by rw [List.any_eq_true]; exact ⟨q, hqmem, hq⟩⟩

theorem touchesSideB_iff (b : Board) (s : Shape) (r c pv : Nat) :
    touchesSideB b s (r : Int) (c : Int) pv = true ↔
      (∃ i j, i < shapeH s ∧ j < shapeW s ∧ shapeAt s i j = 1 ∧
        ∃ q ∈ sideNeighbors ((r : Int) + i) ((c : Int) + j),
          ownAt b pv q = true) := by
  rw [touchesSideB, List.any_eq_true]
  constructor
  · rintro ⟨⟨i, j⟩, hmem, hq⟩
    obtain ⟨hi, hj, hone⟩ := (filledCells_mem s i j).mp hmem
    exact ⟨i, j, hi, hj, hone, by simpa [List.any_eq_true] using hq⟩
  · rintro ⟨i, j, hi, hj, hone, q, hqmem, hq⟩
    exact ⟨(i, j), (filledCells_mem s i j).mpr ⟨hi, hj, hone⟩,
      by rw [List.any_eq_true]; exact ⟨q, hqmem, hq⟩⟩

/-- C6: for a non-first move that fits on the board and overlaps nothing,
the placement is accepted exactly when some filled cell has a diagonal
on-board neighbour holding the player's own colour and no filled cell has
an orthogonal on-board neighbour holding the player's own colour; hence an
orthogonal own-colour contact always rejects even alongside a diagonal one,
and cells of other colours never affect the result (only `pv` cells are
consulted). -/
theorem claim_C6_corner_side_rule (b : Board) (s : Shape) (r c pv : Nat)
    (hfit : fitsB b s (r : Int) (c : Int) = true)
    (hov : noOverlapB b s r c = true) :
    isValidPlacement b s (r : Int) (c : Int) pv false = some true ↔
      ((∃ i j, i < shapeH s ∧ j < shapeW s ∧ shapeAt s i j = 1 ∧
          ∃ q ∈ diagNeighbors ((r : Int) + i) ((c : Int) + j),
            ownAt b pv q = true) ∧
        ¬(∃ i j, i < shapeH s ∧ j < shapeW s ∧ shapeAt s i j = 1 ∧
          ∃ q ∈ sideNeighbors ((r : Int) + i) ((c : Int) + j),
            ownAt b pv q = true)) := by
  rw [isValidPlacement_nat, Option.some_inj, isValidPlacementB, hfit, hov]
  simp only [Bool.true_and, Bool.and_eq_true, Bool.not_eq_true',
    if_neg (Bool.false_ne_true)]
  constructor
  · rintro ⟨h1, h2⟩
    refine ⟨(touchesCornerB_iff b s r c pv).mp h1, fun hp => ?_⟩
    rw [(touchesSideB_iff b s r c pv).mpr hp] at h2
    cases h2
  · rintro ⟨h1, h2⟩
    refine ⟨(touchesCornerB_iff b s r c pv).mpr h1, ?_⟩
    cases hts : touchesSideB b s (r : Int) (c : Int) pv with
    | false => rfl
    | true => exact absurd ((touchesSideB_iff b s r c pv).mp hts) h2

/-- A 3×3 board with one BLUE cell at (0, 0). -/
def demoBoard3 : Board := ⟨3, fun r c => if r = 0 ∧ c = 0 then 1 else 0⟩

/-- Witness for C6: the monomino at (1, 1) next to the BLUE cell at (0, 0). -/
theorem claim_C6_corner_side_rule_witness :
    fitsB demoBoard3 [[1]] ((1 : Nat) : Int) ((1 : Nat) : Int) = true ∧
      noOverlapB demoBoard3 [[1]] 1 1 = true ∧
      (isValidPlacement demoBoard3 [[1]] ((1 : Nat) : Int) ((1 : Nat) : Int) 1
          false = some true ↔
        ((∃ i j, i < shapeH [[1]] ∧ j < shapeW [[1]] ∧ shapeAt [[1]] i j = 1 ∧
            ∃ q ∈ diagNeighbors (((1 : Nat) : Int) + i) (((1 : Nat) : Int) + j),
              ownAt demoBoard3 1 q = true) ∧
          ¬(∃ i j, i < shapeH [[1]] ∧ j < shapeW [[1]] ∧ shapeAt [[1]] i j = 1 ∧
            ∃ q ∈ sideNeighbors (((1 : Nat) : Int) + i) (((1 : Nat) : Int) + j),
              ownAt demoBoard3 1 q = true))) :=
  ⟨by decide, by decide,
    claim_C6_corner_side_rule demoBoard3 [[1]] 1 1 1 (by decide) (by decide)⟩

/-! ## Player and game model (src/core/player.py, src/core/game.py) -/

/-- An inventory piece: its matrix and identifier (its colour tag always
equals the owning player's and is never consulted by the game logic). -/
structure Piece where
  shape : Shape
  pieceId : String
deriving DecidableEq

/-- The static catalog of the 21 standard pieces
(src/utils/piece_data.py), in append order. -/
def standardPieceShapes : List (String × Shape) :=
  [("1", [[1]]),
   ("2", [[1, 1]]),
   ("I3", [[1, 1, 1]]),
   ("V3", [[1, 0], [1, 1]]),
   ("I4", [[1, 1, 1, 1]]),
   ("L4", [[1, 0], [1, 0], [1, 1]]),
   ("Z4", [[1, 1, 0], [0, 1, 1]]),
   ("O4", [[1, 1], [1, 1]]),
   ("T4", [[1, 1, 1], [0, 1, 0]]),
   ("I5", [[1, 1, 1, 1, 1]]),
   ("L5", [[1, 0], [1, 0], [1, 0], [1, 1]]),
   ("Y5", [[0, 1], [1, 1], [0, 1], [0, 1]]),
   ("N5", [[0, 1], [1, 1], [1, 0], [1, 0]]),
   ("P5", [[1, 1], [1, 1], [1, 0]]),
   ("U5", [[1, 0, 1], [1, 1, 1]]),
   ("V5", [[1, 0, 0], [1, 0, 0], [1, 1, 1]]),
   ("Z5", [[1, 1, 0], [0, 1, 0], [0, 1, 1]]),
   ("T5", [[1, 1, 1], [0, 1, 0], [0, 1, 0]]),
   ("W5", [[1, 0, 0], [1, 1, 0], [0, 1, 1]]),
   ("F5", [[0, 1, 1], [1, 1, 0], [0, 1, 0]]),
   ("X5", [[0, 1, 0], [1, 1, 1], [0, 1, 0]])]

/-- Model of `BlokusPlayer`: colour tag, seat id, first-move flag, inventory. -/
structure Player where
  color : Nat
  playerId : Nat
  firstMove : Bool
  pieces : List Piece
deriving DecidableEq

/-- Model of `BlokusPlayer.__init__` + `initialize_pieces`. -/
def initPlayer (color pid : Nat) : Player :=
  ⟨color, pid, true, standardPieceShapes.map (fun e => ⟨e.2, e.1⟩)⟩

/-- Model of `BlokusPlayer.get_piece`: bounds-checked positional access
(out of range, including negative, yields an absent result). -/
def getPiece (p : Player) (idx : Int) : Option Piece :=
  if 0 ≤ idx ∧ idx < (p.pieces.length : Int) then p.pieces.get? idx.toNat
  else none

/-- The state effect of `BlokusPlayer.remove_piece`: delete the indexed
piece when the index is in range, otherwise leave the inventory alone. -/
def removePiece (p : Player) (idx : Int) : Player :=
  if 0 ≤ idx ∧ idx < (p.pieces.length : Int) then
    { p with pieces := p.pieces.eraseIdx idx.toNat }
  else p

/-- One move-history entry. -/
structure MoveRec where
  player : Nat
  pieceId : String
  position : Int × Int
  rotation : Int
  flip : Bool

/-- The `Message` outcomes of `make_move`. -/
inductive Msg where
  | invalidMove
  | pieceNotFound
  | gameOverMsg
  | success
deriving DecidableEq

/-- Model of `BlokusGame` state. -/
structure Game where
  board : Board
  players : List Player
  currentPlayerIdx : Nat
  moveHistory : List MoveRec
  gameOver : Bool
  turnsPlayed : Nat

/-- Model of `Color.get_player_colors()`. -/
def playerColors : List Nat := [1, 2, 3, 4]

/-- Model of `BlokusGame.__init__(num_players)`: a fresh 20×20 board and
`min(num_players, 4)` players (an empty range when `num_players ≤ 0`). -/
def initGame (numPlayers : Int) : Game :=
  { board := emptyBoard 20
    players := (List.range (min numPlayers 4).toNat).map
      (fun i => initPlayer (playerColors.getD i 0) (i + 1))
    currentPlayerIdx := 0
    moveHistory := []
    gameOver := false
    turnsPlayed := 0 }

/-- Model of `BlokusGame.get_current_player`: `players[current_player_idx]`,
`none` models the `IndexError` on an out-of-range index. -/
def getCurrentPlayer (g : Game) : Option Player :=
  g.players.get? g.currentPlayerIdx

/-- The working copy built by `make_move`/`is_valid_move`: apply `rotation`
(only when positive) and then `flip` to the piece's matrix. -/
def applyTransforms (s : Shape) (rotation : Int) (flip : Bool) : Shape :=
  let s1 := if 0 < rotation then rotateShape s rotation else s
  if flip then flipShape s1 else s1

/-- Model of `BlokusGame.is_valid_move`. -/
def isValidMove (g : Game) (pieceIdx : Int) (pos : Int × Int)
    (rotation : Int) (flip : Bool) : Option Bool :=
  match getCurrentPlayer g with
  | none => none
  | some player =>
    match getPiece player pieceIdx with
    | none => some false
    | some piece =>
      isValidPlacement g.board (applyTransforms piece.shape rotation flip)
        pos.1 pos.2 player.color player.firstMove

/-- The (flip, rotation) working shapes tried by `_can_player_move`: a fresh
copy per flip value, then cumulative single clockwise rotations. -/
def orientationTrials (s : Shape) : List Shape :=
  [false, true].flatMap (fun f =>
    (List.range 4).map (fun t => rotCW^[t] (if f then flipShape s else s)))

/-- Model of `BlokusGame._can_player_move(player_idx)` (reads only the board and the
players list). -/
def canPlayerMove (g : Game) (pidx : Nat) : Bool :=
  match g.players.get? pidx with
  | none => false
  | some player =>
    if player.pieces.length = 0 then false
    else if player.firstMove then
      (boardCornersList g.board).any (fun corner =>
        player.pieces.any (fun piece =>
          (orientationTrials piece.shape).any (fun ts =>
            isValidPlacement g.board ts (corner.1 : Int) (corner.2 : Int)
              player.color true == some true)))
    else
      let corners := getPlayerCorners g.board player.color
      if corners.isEmpty then false
      else
        corners.any (fun anchor =>
          player.pieces.any (fun piece =>
            (orientationTrials piece.shape).any (fun ts =>
              (List.range (shapeH ts)).any (fun ro =>
                (List.range (shapeW ts)).any (fun co =>
                  let posr : Int := (anchor.1 : Int) - (ro : Int)
                  let posc : Int := (anchor.2 : Int) - (co : Int)
                  if posr < 0 ∨ posc < 0 then false
                  else isValidPlacement g.board ts posr posc player.color
                    false == some true)))))

/-- The loop body of `BlokusGame._next_player`, with the remaining number of
candidates to examine as fuel (`len(players) - players_checked`). -/
def nextPlayerAux (g : Game) (orig : Nat) : Nat → Game
  | 0 => { g with gameOver := true, currentPlayerIdx := orig }
  | fuel + 1 =>
    let ni := (g.currentPlayerIdx + 1) % g.players.length
    let g' := { g with currentPlayerIdx := ni }
    if canPlayerMove g' ni then g' else nextPlayerAux g' orig fuel

/-- Model of `BlokusGame._next_player`. -/
def nextPlayer (g : Game) : Game :=
  nextPlayerAux g g.currentPlayerIdx g.players.length

/-- Model of `BlokusGame.make_move`: returns the updated game, the success flag and
the message; `none` models an uncaught exception (empty player list or an
out-of-range raw grid access), which leaves the state unchanged because the
source raises before any mutation. -/
def makeMove (g : Game) (pieceIdx : Int) (pos : Int × Int) (rotation : Int)
    (flip : Bool) : Option (Game × Bool × Msg) :=
  if g.gameOver then some (g, false, Msg.gameOverMsg)
  else
    match isValidMove g pieceIdx pos rotation flip with
    | none => none
    | some false => some (g, false, Msg.invalidMove)
    | some true =>
      match getCurrentPlayer g with
      | none => none
      | some player =>
        match getPiece player pieceIdx with
        | none => some (g, false, Msg.pieceNotFound)
        | some piece =>
          let tempShape := applyTransforms piece.shape rotation flip
          match placePiece g.board tempShape pos.1 pos.2 player.color with
          | none => none
          | some b' =>
            let player' := { removePiece player pieceIdx with firstMove := false }
            let g1 := { g with
              board := b'
              players := g.players.set g.currentPlayerIdx player'
              moveHistory := g.moveHistory ++
                [⟨player.playerId, piece.pieceId, pos, rotation, flip⟩]
              turnsPlayed := g.turnsPlayed + 1 }
            some (nextPlayer g1, true, Msg.success)

/-- C10: the constructor creates exactly `min(num_players, 4)` players —
values above 4 are silently clamped to 4, values below 2 (including 0 and
negatives) are not rejected and give a player list with fewer than two
entries, and on the empty list (`num_players ≤ 0`) `get_current_player`
faults. -/
theorem claim_C10_constructor_clamping (n : Int) :
    (initGame n).players.length = (min n 4).toNat ∧
      (4 ≤ n → (initGame n).players.length = 4) ∧
      (n ≤ 1 → (initGame n).players.length < 2) ∧
      (n ≤ 0 → getCurrentPlayer (initGame n) = none) := by
  have hlen : (initGame n).players.length = (min n 4).toNat := by
    simp [initGame]
  refine ⟨hlen, ?_, ?_, ?_⟩
  · intro h4
    rw [hlen]
    omega
  · intro h1
    rw [hlen]
    omega
  · intro h0
    have hz : (min n 4).toNat = 0 := by omega
    rw [getCurrentPlayer]
    have : (initGame n).players.length = 0 := by rw [hlen, hz]
    rw [List.get?_eq_none]
    · rw [this]
      exact Nat.zero_le _

/-- Witness for C10 at `num_players = -1`. -/
theorem claim_C10_constructor_clamping_witness :
    (initGame (-1)).players.length = (min (-1 : Int) 4).toNat ∧
      (4 ≤ (-1 : Int) → (initGame (-1)).players.length = 4) ∧
      ((-1 : Int) ≤ 1 → (initGame (-1)).players.length < 2) ∧
      ((-1 : Int) ≤ 0 → getCurrentPlayer (initGame (-1)) = none) :=
  claim_C10_constructor_clamping (-1)

/-- C4: whenever `make_move` reports failure (GameOver, InvalidMove or
PieceNotFound), the resulting game state is identical to the starting one:
board grid, every player's inventory and first-move flag, move history,
current-turn index and turn counter all unchanged. -/
theorem claim_C4_rejected_move_is_pure (g : Game) (pieceIdx : Int)
    (pos : Int × Int) (rotation : Int) (flip : Bool) (g' : Game) (msg : Msg)
    (h : makeMove g pieceIdx pos rotation flip = some (g', false, msg)) :
    g' = g := by
  rw [makeMove] at h
  split at h
  · simp only [Option.some.injEq, Prod.mk.injEq] at h
    exact h.1.symm
  · split at h
    · cases h
    · simp only [Option.some.injEq, Prod.mk.injEq] at h
      exact h.1.symm
    · split at h
      · cases h
      · split at h
        · simp only [Option.some.injEq, Prod.mk.injEq] at h
          exact h.1.symm
        · dsimp only at h
          split at h
          · cases h
          · simp only [Option.some.injEq, Prod.mk.injEq] at h
            exact absurd h.2.1 (by simp)

/-- A small concrete game used by witnesses: a 2×2 board, one player with a
single monomino. -/
def gTiny : Game := ⟨⟨2, fun _ _ => 0⟩, [⟨1, 1, true, [⟨[[1]], "1"⟩]⟩], 0, [], false, 0⟩

/-- Witness for C4: an out-of-range piece index is rejected with InvalidMove
and the state is unchanged. -/
theorem claim_C4_rejected_move_is_pure_witness :
    makeMove gTiny (-1) (0, 0) 0 false = some (gTiny, false, Msg.invalidMove) ∧
      gTiny = gTiny := by
  have h : makeMove gTiny (-1) (0, 0) 0 false =
      some (gTiny, false, Msg.invalidMove) := rfl
  exact ⟨h, claim_C4_rejected_move_is_pure gTiny (-1) (0, 0) 0 false
    gTiny Msg.invalidMove h⟩

theorem canPlayerMove_idx (g : Game) (x p : Nat) :
    canPlayerMove { g with currentPlayerIdx := x } p = canPlayerMove g p := rfl

theorem mod_shift (idx k n : Nat) :
    ((idx + 1) % n + k) % n = (idx + (k + 1)) % n := by
  rw [Nat.mod_add_mod]
  congr 1
  omega

theorem nextPlayerAux_finds : ∀ (fuel : Nat) (g : Game) (orig k : Nat),
    1 ≤ k → k ≤ fuel →
    canPlayerMove g ((g.currentPlayerIdx + k) % g.players.length) = true →
    (∀ j, 1 ≤ j → j < k →
      canPlayerMove g ((g.currentPlayerIdx + j) % g.players.length) = false) →
    nextPlayerAux g orig fuel =
      { g with currentPlayerIdx := (g.currentPlayerIdx + k) % g.players.length } := by
  intro fuel
  induction fuel with
  | zero => intro g orig k h1 h2 _ _; omega
  | succ fuel ih =>
    intro g orig k h1 h2 hcan hprev
    simp only [nextPlayerAux]
    by_cases hk1 : k = 1
    · subst hk1
      rw [canPlayerMove_idx, hcan]
      simp
    · have hj1 : canPlayerMove g
          ((g.currentPlayerIdx + 1) % g.players.length) = false :=
        hprev 1 le_rfl (by omega)
      rw [canPlayerMove_idx, hj1]
      simp only [Bool.false_eq_true, if_false]
      refine (ih _ orig (k - 1) (by omega) (by omega) ?_ ?_).trans ?_
      · show canPlayerMove
          { g with currentPlayerIdx := (g.currentPlayerIdx + 1) % g.players.length }
          (((g.currentPlayerIdx + 1) % g.players.length + (k - 1)) %
            g.players.length) = true
        rw [canPlayerMove_idx, mod_shift]
        have hk : k - 1 + 1 = k := by omega
        rw [hk]
        exact hcan
      · intro j hj hjk
        show canPlayerMove
          { g with currentPlayerIdx := (g.currentPlayerIdx + 1) % g.players.length }
          (((g.currentPlayerIdx + 1) % g.players.length + j) %
            g.players.length) = false
        rw [canPlayerMove_idx, mod_shift]
        exact hprev (j + 1) (by omega) (by omega)
      · show ({ g with currentPlayerIdx :=
            ((g.currentPlayerIdx + 1) % g.players.length + (k - 1)) %
              g.players.length } : Game) =
          { g with currentPlayerIdx := (g.currentPlayerIdx + k) % g.players.length }
        rw [mod_shift]
        have hk : k - 1 + 1 = k := by omega
        rw [hk]

theorem nextPlayerAux_exhausted : ∀ (fuel : Nat) (g : Game) (orig : Nat),
    (∀ k, 1 ≤ k → k ≤ fuel →
      canPlayerMove g ((g.currentPlayerIdx + k) % g.players.length) = false) →
    nextPlayerAux g orig fuel =
      { g with gameOver := true, currentPlayerIdx := orig } := by
  intro fuel
  induction fuel with
  | zero => intro g orig _; rfl
  | succ fuel ih =>
    intro g orig h
    simp only [nextPlayerAux]
    rw [canPlayerMove_idx, h 1 le_rfl (by omega)]
    simp only [Bool.false_eq_true, if_false]
    refine (ih _ orig ?_).trans ?_
    · intro k hk1 hk2
      show canPlayerMove
        { g with currentPlayerIdx := (g.currentPlayerIdx + 1) % g.players.length }
        (((g.currentPlayerIdx + 1) % g.players.length + k) %
          g.players.length) = false
      rw [canPlayerMove_idx, mod_shift]
      exact h (k + 1) (by omega) (by omega)
    · rfl

/-- C7: the turn-advance procedure examines at most `len(players)`
candidates starting from the player after the mover; it commits the turn
index to the first candidate for whom the can-move predicate holds, and when
no candidate qualifies after a full cycle it sets `game_over` and leaves the
turn index at exactly its pre-scan value (the mover's seat). -/
theorem claim_C7_next_player_scan (g : Game) :
    (∀ k, 1 ≤ k → k ≤ g.players.length →
      canPlayerMove g ((g.currentPlayerIdx + k) % g.players.length) = true →
      (∀ j, 1 ≤ j → j < k →
        canPlayerMove g ((g.currentPlayerIdx + j) % g.players.length) = false) →
      nextPlayer g =
        { g with currentPlayerIdx :=
            (g.currentPlayerIdx + k) % g.players.length }) ∧
      ((∀ k, 1 ≤ k → k ≤ g.players.length →
        canPlayerMove g ((g.currentPlayerIdx + k) % g.players.length) = false) →
        nextPlayer g = { g with gameOver := true }) :=
  ⟨fun k h1 h2 hcan hprev =>
      nextPlayerAux_finds g.players.length g g.currentPlayerIdx k h1 h2 hcan hprev,
    fun h => nextPlayerAux_exhausted g.players.length g g.currentPlayerIdx h⟩

/-- A game whose single player has a piece but no anchor left. -/
def gStuck : Game :=
  ⟨⟨1, fun _ _ => 1⟩, [⟨1, 1, false, [⟨[[1]], "1"⟩]⟩], 0, [], false, 0⟩

/-- Witness for C7: with no candidate able to move, the scan terminates the
game and restores the turn pointer. -/
theorem claim_C7_next_player_scan_witness :
    nextPlayer gStuck = { gStuck with gameOver := true } :=
  (claim_C7_next_player_scan gStuck).2 (fun k h1 h2 => by
    have h2' : k ≤ 1 := by simpa [gStuck] using h2
    have hk : k = 1 := by omega
    subst hk
    decide)

/-! ## Reachable game states -/

/-- One `make_move` call that did not raise (failed calls leave the state
unchanged and still step to it). -/
inductive Step : Game → Game → Prop where
  | mk : ∀ (g : Game) (pieceIdx : Int) (pos : Int × Int) (rotation : Int)
      (flip : Bool) (out : Game × Bool × Msg),
      makeMove g pieceIdx pos rotation flip = some out → Step g out.1

/-- Reachability by a sequence of `make_move` calls. -/
def ReachFrom : Game → Game → Prop := Relation.ReflTransGen Step

theorem allM_true_forall {α : Type} (l : List α) (f : α → Option Bool)
    (h : l.allM f = some true) : ∀ x ∈ l, f x = some true := by
  induction l with
  | nil => intro x hx; cases hx
  | cons a t ih =>
    intro x hx
    cases hfa : f a with
    | none =>
      exfalso
      simp [List.allM, hfa] at h
    | some b =>
      cases b with
      | false =>
        exfalso
        simp [List.allM, hfa] at h
      | true =>
        have ht : t.allM f = some true := by simpa [List.allM, hfa] using h
        rcases List.mem_cons.mp hx with rfl | hxt
        · exact hfa
        · exact ih ht x hxt

theorem npGet_eq_some (b : Board) (i j : Int) (v : Nat) :
    npGet b i j = some v ↔
      ∃ ri ci, npIdx b.size i = some ri ∧ npIdx b.size j = some ci ∧
        b.grid ri ci = v := by
  rw [npGet]
  cases hx : npIdx b.size i <;> cases hy : npIdx b.size j <;> simp

theorem placeLoop_preserves :
    ∀ (cells : List (Nat × Nat)) (b bb : Board) (pr pc : Int) (pv : Nat)
      (b' : Board),
      bb.size = b.size →
      (∀ x y, b.grid x y ≠ 0 → bb.grid x y = b.grid x y) →
      (∀ rc ∈ cells, npGet b (pr + rc.1) (pc + rc.2) = some 0) →
      cells.foldlM (fun cur rc => npSet cur (pr + rc.1) (pc + rc.2) pv) bb =
        some b' →
      b'.size = b.size ∧ ∀ x y, b.grid x y ≠ 0 → b'.grid x y = b.grid x y := by
  intro cells
  induction cells with
  | nil =>
    intro b bb pr pc pv b' hsize hinv _ hfold
    cases hfold
    exact ⟨hsize, hinv⟩
  | cons rc t ih =>
    intro b bb pr pc pv b' hsize hinv hcells hfold
    have hget := hcells rc (List.mem_cons_self rc t)
    obtain ⟨ri, ci, hri, hci, hval⟩ := (npGet_eq_some b _ _ 0).mp hget
    rw [List.foldlM_cons] at hfold
    rw [npSet, hsize, hri, hci] at hfold
    replace hfold : List.foldlM
        (fun cur rc => npSet cur (pr + (rc.1 : Int)) (pc + (rc.2 : Int)) pv)
        (⟨b.size, fun x y => if x = ri ∧ y = ci then pv else bb.grid x y⟩ : Board)
        t = some b' := hfold
    refine ih b
      ⟨b.size, fun x y => if x = ri ∧ y = ci then pv else bb.grid x y⟩
      pr pc pv b' rfl ?_
      (fun x hx => hcells x (List.mem_cons_of_mem rc hx)) hfold
    intro x y hxy
    have hne : ¬(x = ri ∧ y = ci) := by
      rintro ⟨rfl, rfl⟩
      exact hxy hval
    show (if x = ri ∧ y = ci then pv else bb.grid x y) = b.grid x y
    rw [if_neg hne]
    exact hinv x y hxy

theorem isValidPlacement_true_overlap (b : Board) (s : Shape) (pr pc : Int)
    (pv : Nat) (fm : Bool) (h : isValidPlacement b s pr pc pv fm = some true) :
    overlapCheck b s pr pc = some true := by
  rw [isValidPlacement] at h
  split at h
  · cases h
  · split at h
    · cases h
    · rename_i heq
      exact absurd h (by simp)
    · rename_i heq
      exact heq

theorem placePiece_preserves (b : Board) (s : Shape) (pr pc : Int) (pv : Nat)
    (b' : Board) (hov : overlapCheck b s pr pc = some true)
    (hpl : placePiece b s pr pc pv = some b') :
    b'.size = b.size ∧ ∀ x y, b.grid x y ≠ 0 → b'.grid x y = b.grid x y := by
  have hcells : ∀ rc ∈ filledCells s, npGet b (pr + rc.1) (pc + rc.2) = some 0 := by
    intro rc hrc
    have := allM_true_forall _ _ hov rc hrc
    cases hget : npGet b (pr + rc.1) (pc + rc.2) with
    | none => rw [hget] at this; cases this
    | some v =>
      rw [hget] at this
      have hv : v = 0 := by simpa using this
      rw [hv]
  exact placeLoop_preserves (filledCells s) b b pr pc pv b' rfl
    (fun _ _ _ => rfl) hcells hpl

theorem nextPlayerAux_board (fuel : Nat) :
    ∀ (g : Game) (orig : Nat), (nextPlayerAux g orig fuel).board = g.board := by
  induction fuel with
  | zero => intro g orig; rfl
  | succ fuel ih =>
    intro g orig
    simp only [nextPlayerAux]
    split
    · rfl
    · exact ih _ orig

theorem isValidMove_true_placement (g : Game) (pieceIdx : Int)
    (pos : Int × Int) (rotation : Int) (flip : Bool)
    (h : isValidMove g pieceIdx pos rotation flip = some true) :
    ∃ player piece, getCurrentPlayer g = some player ∧
      getPiece player pieceIdx = some piece ∧
      isValidPlacement g.board (applyTransforms piece.shape rotation flip)
        pos.1 pos.2 player.color player.firstMove = some true := by
  rw [isValidMove] at h
  split at h
  · cases h
  · rename_i player hplayer
    split at h
    · cases h
    · rename_i piece hpiece
      exact ⟨player, piece, hplayer, hpiece, h⟩

/-- Any single `make_move` call preserves the board size and every already
non-empty cell's value: a successful placement only writes cells that the
overlap check just saw empty, and failures change nothing. -/
theorem step_board_preserves (g : Game) (pieceIdx : Int) (pos : Int × Int)
    (rotation : Int) (flip : Bool) (out : Game × Bool × Msg)
    (h : makeMove g pieceIdx pos rotation flip = some out) :
    out.1.board.size = g.board.size ∧
      ∀ x y, g.board.grid x y ≠ 0 → out.1.board.grid x y = g.board.grid x y := by
  rw [makeMove] at h
  split at h
  · cases h
    exact ⟨rfl, fun _ _ _ => rfl⟩
  · split at h
    · cases h
    · cases h
      exact ⟨rfl, fun _ _ _ => rfl⟩
    · rename_i hvalid
      split at h
      · cases h
      · rename_i player hplayer
        split at h
        · cases h
          exact ⟨rfl, fun _ _ _ => rfl⟩
        · rename_i piece hpiece
          dsimp only at h
          split at h
          · cases h
          · rename_i b' hplace
            cases h
            obtain ⟨player', piece', hp', hpc', hival⟩ :=
              isValidMove_true_placement g pieceIdx pos rotation flip hvalid
            rw [hplayer] at hp'
            cases hp'
            rw [hpiece] at hpc'
            cases hpc'
            have hov := isValidPlacement_true_overlap _ _ _ _ _ _ hival
            have hpres := placePiece_preserves _ _ _ _ _ _ hov hplace
            simp only [nextPlayer, nextPlayerAux_board]
            exact hpres

/-- C5: along any sequence of `make_move` calls from a fresh game, each grid
cell changes value at most once: a cell that is non-empty at some reachable
state keeps exactly that value in every later reachable state (so a colour
never reverts to empty, is never overwritten, and distinct successful
placements write disjoint cell sets). -/
theorem claim_C5_cells_write_once (n : Int) (g g' : Game)
    (hinit : ReachFrom (initGame n) g) (hlater : ReachFrom g g')
    (r c : Nat) (hne : g.board.grid r c ≠ 0) :
    g'.board.grid r c = g.board.grid r c := by
  induction hlater with
  | refl => rfl
  | tail hab hbc ih =>
    cases hbc with
    | mk pieceIdx pos rotation flip out hmv =>
      have hpres := step_board_preserves _ pieceIdx pos rotation flip out hmv
      rw [hpres.2 r c (by rw [ih]; exact hne)]
      exact ih

/-- The game after the opening move: player 1 places the monomino (piece 0)
at (0, 0). -/
def moveOut : Game × Bool × Msg :=
  (makeMove (initGame 2) 0 (0, 0) 0 false).getD (initGame 2, false, Msg.invalidMove)

set_option maxHeartbeats 4000000 in
theorem moveOut_eq : makeMove (initGame 2) 0 (0, 0) 0 false = some moveOut := rfl

set_option maxHeartbeats 4000000 in
/-- Witness for C5: after the opening move the cell (0, 0) holds BLUE and
keeps that value in the reached state. -/
theorem claim_C5_cells_write_once_witness :
    moveOut.1.board.grid 0 0 ≠ 0 ∧
      moveOut.1.board.grid 0 0 = moveOut.1.board.grid 0 0 :=
  ⟨by decide, claim_C5_cells_write_once 2 moveOut.1 moveOut.1
    (Relation.ReflTransGen.single
      (Step.mk (initGame 2) 0 (0, 0) 0 false moveOut moveOut_eq))
    Relation.ReflTransGen.refl 0 0 (by decide)⟩

/-! ### Orientation algebra: the `(flip, rotation)` trials of
`_can_player_move` cover every shape `make_move` can attempt. -/

theorem shapeH_flip (s : Shape) : shapeH (flipShape s) = shapeH s := by
  simp [flipShape, shapeH]

theorem shapeW_flip (s : Shape) : shapeW (flipShape s) = shapeW s := by
  cases s with
  | nil => rfl
  | cons a t => simp [flipShape, shapeW]

theorem isRectB_flip (s : Shape) (hrect : isRectB s = true) :
    isRectB (flipShape s) = true := by
  rw [isRectB, List.all_eq_true] at hrect ⊢
  intro row hrow
  rw [flipShape, List.mem_map] at hrow
  obtain ⟨row0, hrow0, rfl⟩ := hrow
  have := hrect row0 hrow0
  simpa [shapeW_flip] using this

theorem shapeAt_flip (s : Shape) (hrect : isRectB s = true) (i j : Nat)
    (hi : i < shapeH s) (hj : j < shapeW s) :
    shapeAt (flipShape s) i j = shapeAt s i (shapeW s - 1 - j) := by
  have hlen : (s.getD i []).length = shapeW s := rect_row_len s hrect i hi
  have hrow : (flipShape s).getD i [] = (s.getD i []).reverse := by
    rw [flipShape, getDlt s [] i (by simpa [shapeH] using hi),
      getDlt _ _ i (by simpa [flipShape, shapeH] using hi)]
    simp
  rw [shapeAt, hrow, shapeAt]
  rw [getDlt ((s.getD i []).reverse) 0 j
    (by rw [List.length_reverse, hlen]; exact hj)]
  rw [getDlt (s.getD i []) 0 (shapeW s - 1 - j) (by rw [hlen]; omega)]
  rw [List.getElem_reverse]
  congr 1
  omega

theorem shapeH_rotCCW (s : Shape) : shapeH (rotCCW s) = shapeW s := by
  rw [shapeH, length_rotCCW]

theorem rot3_entry (s : Shape) (hrect : isRectB s = true) (hw : 0 < shapeW s)
    (i j : Nat) (hi : i < shapeW s) (hj : j < shapeH s) :
    shapeAt (rotCCW (rotCCW (rotCCW s))) i j =
      shapeAt s (shapeH s - 1 - j) i := by
  obtain ⟨d1, d2, d3, d4⟩ := dims_rot2 s hrect hw
  rw [shapeAt_rotCCW _ i j (by rw [d2]; exact hi)]
  have hjh : j < shapeH (rotCCW (rotCCW s)) := by rw [d1]; exact hj
  rw [if_pos hjh, d2]
  rw [shapeAt_rot2 s hrect hw j (shapeW s - 1 - i) hj (by omega)]
  congr 1
  omega

theorem rotCCW_iter_rect (s : Shape) (hrect : isRectB s = true)
    (hw : 0 < shapeW s) :
    ∀ m, isRectB (rotCCW^[m] s) = true ∧ 0 < shapeW (rotCCW^[m] s) := by
  intro m
  induction m with
  | zero => exact ⟨hrect, hw⟩
  | succ m ih =>
    rw [Function.iterate_succ_apply']
    exact ⟨isRectB_rotCCW _, shapeW_rotCCW_pos _ ih.1 ih.2⟩

theorem rotCCW_iter_mod (s : Shape) (hrect : isRectB s = true)
    (hw : 0 < shapeW s) : ∀ n, rotCCW^[n] s = rotCCW^[n % 4] s := by
  intro n
  induction n using Nat.strong_induction_on with
  | _ n ih =>
    by_cases h4 : n < 4
    · rw [Nat.mod_eq_of_lt h4]
    · have hn : n = (n - 4) + 4 := by omega
      rw [hn, Function.iterate_add_apply]
      have h4eq : rotCCW^[4] s = s := rotCCW_four s hrect hw
      rw [h4eq, ih (n - 4) (by omega)]
      congr 1
      omega

theorem rotCW_eq (x : Shape) : rotCW x = rotCCW (rotCCW (rotCCW x)) := rfl

theorem rotCW_iter (t : Nat) (x : Shape) : rotCW^[t] x = rotCCW^[3 * t] x := by
  induction t generalizing x with
  | zero => rfl
  | succ t ih =>
    rw [Function.iterate_succ_apply, ih (rotCW x), rotCW_eq]
    have h3 : rotCCW (rotCCW (rotCCW x)) = rotCCW^[3] x := rfl
    rw [h3, ← Function.iterate_add_apply]
    congr 1

theorem flip_rotCCW (s : Shape) (hrect : isRectB s = true)
    (hw : 0 < shapeW s) :
    flipShape (rotCCW s) = rotCCW^[3] (flipShape s) := by
  show flipShape (rotCCW s) = rotCCW (rotCCW (rotCCW (flipShape s)))
  have hh : 0 < shapeH s := shapeH_pos s hw
  have hfr : isRectB (flipShape s) = true := isRectB_flip s hrect
  have hfw : 0 < shapeW (flipShape s) := by rw [shapeW_flip]; exact hw
  obtain ⟨e1, e2, e3, e4⟩ := dims_rot2 (flipShape s) hfr hfw
  have hlenL : shapeH (flipShape (rotCCW s)) = shapeW s := by
    rw [shapeH_flip, shapeH_rotCCW]
  have hlenR : shapeH (rotCCW (rotCCW (rotCCW (flipShape s)))) = shapeW s := by
    rw [shapeH_rotCCW, e2, shapeW_flip]
  apply shape_ext
  · show shapeH _ = shapeH _
    rw [hlenL, hlenR]
  · intro i hi
    replace hi : i < shapeW s := by
      rw [show (flipShape (rotCCW s)).length = shapeH (flipShape (rotCCW s))
        from rfl, hlenL] at hi
      exact hi
    rw [rect_row_len _ (isRectB_flip _ (isRectB_rotCCW s)) i
        (by rw [hlenL]; exact hi),
      rect_row_len _ (isRectB_rotCCW _) i (by rw [hlenR]; exact hi)]
    rw [shapeW_flip, shapeW_rotCCW s hw, shapeW_rotCCW _ e4, e1, shapeH_flip]
  · intro i j hi hj
    replace hi : i < shapeW s := by
      rw [show (flipShape (rotCCW s)).length = shapeH (flipShape (rotCCW s))
        from rfl, hlenL] at hi
      exact hi
    replace hj : j < shapeH s := by
      rw [rect_row_len _ (isRectB_flip _ (isRectB_rotCCW s)) i
          (by rw [hlenL]; exact hi),
        shapeW_flip, shapeW_rotCCW s hw] at hj
      exact hj
    rw [shapeAt_flip _ (isRectB_rotCCW s) i j
        (by rw [shapeH_rotCCW]; exact hi)
        (by rw [shapeW_rotCCW s hw]; exact hj)]
    rw [shapeW_rotCCW s hw]
    rw [shapeAt_rotCCW s i _ hi, if_pos (by omega : shapeH s - 1 - j < shapeH s)]
    rw [rot3_entry (flipShape s) hfr hfw i j
        (by rw [shapeW_flip]; exact hi) (by rw [shapeH_flip]; exact hj)]
    rw [shapeH_flip]
    rw [shapeAt_flip s hrect _ _ (by omega) (by omega)]

theorem flip_rotCCW_iter (s : Shape) (hrect : isRectB s = true)
    (hw : 0 < shapeW s) :
    ∀ m, m ≤ 3 →
      flipShape (rotCCW^[m] s) = rotCCW^[(3 * m) % 4] (flipShape s) := by
  have hfr : isRectB (flipShape s) = true := isRectB_flip s hrect
  have hfw : 0 < shapeW (flipShape s) := by rw [shapeW_flip]; exact hw
  have h1 : flipShape (rotCCW s) = rotCCW^[3] (flipShape s) :=
    flip_rotCCW s hrect hw
  have hr1 : isRectB (rotCCW s) = true ∧ 0 < shapeW (rotCCW s) := by
    have := rotCCW_iter_rect s hrect hw 1
    simpa using this
  have h2 : flipShape (rotCCW (rotCCW s)) = rotCCW^[2] (flipShape s) := by
    have ha : flipShape (rotCCW (rotCCW s)) = rotCCW^[3] (flipShape (rotCCW s)) :=
      flip_rotCCW (rotCCW s) hr1.1 hr1.2
    rw [ha, h1, ← Function.iterate_add_apply,
      show (3 : Nat) + 3 = 6 from rfl, rotCCW_iter_mod (flipShape s) hfr hfw 6]
  intro m hm
  interval_cases m
  · rfl
  · exact h1
  · exact h2
  · show flipShape (rotCCW (rotCCW (rotCCW s))) = rotCCW^[1] (flipShape s)
    have hr2 : isRectB (rotCCW (rotCCW s)) = true ∧
        0 < shapeW (rotCCW (rotCCW s)) := by
      have := rotCCW_iter_rect s hrect hw 2
      simpa [show rotCCW^[2] s = rotCCW (rotCCW s) from rfl] using this
    have hb : flipShape (rotCCW (rotCCW (rotCCW s))) =
        rotCCW^[3] (flipShape (rotCCW (rotCCW s))) :=
      flip_rotCCW (rotCCW (rotCCW s)) hr2.1 hr2.2
    rw [hb, h2, ← Function.iterate_add_apply,
      show (3 : Nat) + 2 = 5 from rfl, rotCCW_iter_mod (flipShape s) hfr hfw 5]

theorem mem_trials_of_eq (s : Shape) (f' : Bool) (t : Nat) (ht : t < 4)
    (x : Shape) (hx : rotCW^[t] (if f' then flipShape s else s) = x) :
    x ∈ orientationTrials s := by
  rw [orientationTrials, List.mem_flatMap]
  refine ⟨f', by cases f' <;> simp, ?_⟩
  rw [List.mem_map]
  exact ⟨t, by simpa using ht, hx⟩

/-- Every working shape `make_move` can build — `rotation ∈ [0,3]` then an
optional flip — is among the shapes `_can_player_move` tries. -/
theorem applyTransforms_mem_trials (s : Shape) (hrect : isRectB s = true)
    (hw : 0 < shapeW s) (k : Nat) (hk : k ≤ 3) (f : Bool) :
    applyTransforms s (k : Int) f ∈ orientationTrials s := by
  have hfr : isRectB (flipShape s) = true := isRectB_flip s hrect
  have hfw : 0 < shapeW (flipShape s) := by rw [shapeW_flip]; exact hw
  interval_cases k
  · cases f
    · exact mem_trials_of_eq s false 0 (by omega) _ rfl
    · exact mem_trials_of_eq s true 0 (by omega) _ rfl
  · cases f
    · exact mem_trials_of_eq s false 1 (by omega) _ rfl
    · refine mem_trials_of_eq s true 3 (by omega) _ ?_
      show rotCW^[3] (flipShape s) = applyTransforms s ((1 : Nat) : Int) true
      rw [rotCW_iter, show (3 * 3 : Nat) = 9 from rfl,
        rotCCW_iter_mod (flipShape s) hfr hfw 9, show (9 : Nat) % 4 = 1 from rfl]
      have ha : applyTransforms s ((1 : Nat) : Int) true =
          flipShape (rotCCW^[3] s) := rfl
      rw [ha, flip_rotCCW_iter s hrect hw 3 (by omega),
        show (3 * 3 : Nat) % 4 = 1 from rfl]
  · cases f
    · refine mem_trials_of_eq s false 2 (by omega) _ ?_
      show rotCW^[2] s = applyTransforms s ((2 : Nat) : Int) false
      rw [rotCW_iter, show (3 * 2 : Nat) = 6 from rfl,
        rotCCW_iter_mod s hrect hw 6, show (6 : Nat) % 4 = 2 from rfl]
      rfl
    · refine mem_trials_of_eq s true 2 (by omega) _ ?_
      show rotCW^[2] (flipShape s) = applyTransforms s ((2 : Nat) : Int) true
      rw [rotCW_iter, show (3 * 2 : Nat) = 6 from rfl,
        rotCCW_iter_mod (flipShape s) hfr hfw 6, show (6 : Nat) % 4 = 2 from rfl]
      have ha : applyTransforms s ((2 : Nat) : Int) true =
          flipShape (rotCCW^[2] s) := rfl
      rw [ha, flip_rotCCW_iter s hrect hw 2 (by omega),
        show (3 * 2 : Nat) % 4 = 2 from rfl]
  · cases f
    · refine mem_trials_of_eq s false 3 (by omega) _ ?_
      show rotCW^[3] s = applyTransforms s ((3 : Nat) : Int) false
      rw [rotCW_iter, show (3 * 3 : Nat) = 9 from rfl,
        rotCCW_iter_mod s hrect hw 9, show (9 : Nat) % 4 = 1 from rfl]
      rfl
    · refine mem_trials_of_eq s true 1 (by omega) _ ?_
      show rotCW^[1] (flipShape s) = applyTransforms s ((3 : Nat) : Int) true
      rw [rotCW_iter, show (3 * 1 : Nat) = 3 from rfl,
        rotCCW_iter_mod (flipShape s) hfr hfw 3, show (3 : Nat) % 4 = 3 from rfl]
      have ha : applyTransforms s ((3 : Nat) : Int) true =
          flipShape (rotCCW^[1] s) := rfl
      rw [ha, flip_rotCCW_iter s hrect hw 1 (by omega),
        show (3 * 1 : Nat) % 4 = 3 from rfl]

theorem validB_decomp (b : Board) (s : Shape) (r c pv : Nat)
    (hB : isValidPlacementB b s r c pv false = true) :
    fitsB b s (r : Int) (c : Int) = true ∧ noOverlapB b s r c = true ∧
      touchesCornerB b s (r : Int) (c : Int) pv = true ∧
      touchesSideB b s (r : Int) (c : Int) pv = false := by
  rw [isValidPlacementB, Bool.and_eq_true, Bool.and_eq_true] at hB
  obtain ⟨hfit, hov, hrest⟩ := hB
  rw [if_neg (Bool.false_ne_true), Bool.and_eq_true, Bool.not_eq_true'] at hrest
  exact ⟨hfit, hov, hrest.1, hrest.2⟩

theorem validB_decomp_first (b : Board) (s : Shape) (r c pv : Nat)
    (hB : isValidPlacementB b s r c pv true = true) :
    fitsB b s (r : Int) (c : Int) = true ∧ noOverlapB b s r c = true ∧
      coversCornerB b s (r : Int) (c : Int) = true := by
  rw [isValidPlacementB, Bool.and_eq_true, Bool.and_eq_true] at hB
  obtain ⟨hfit, hov, hrest⟩ := hB
  rw [if_pos rfl] at hrest
  exact ⟨hfit, hov, hrest⟩

/-- The heart of claim C1 / claim C3: a valid non-first placement at a
non-negative position covers a cell that `get_player_corners` classifies as
an anchor. -/
theorem validB_anchor (b : Board) (s : Shape) (pv r c : Nat)
    (hB : isValidPlacementB b s r c pv false = true) :
    ∃ i j, i < shapeH s ∧ j < shapeW s ∧ shapeAt s i j = 1 ∧
      (r + i, c + j) ∈ getPlayerCorners b pv := by
  obtain ⟨hfit, hov, htc, hts⟩ := validB_decomp b s r c pv hB
  obtain ⟨hsizeH, hsizeW⟩ := (fitsB_nat_iff b s r c).mp hfit
  rw [touchesCornerB, List.any_eq_true] at htc
  obtain ⟨rc, hrcmem, hdiag⟩ := htc
  cases rc with
  | mk i j =>
    obtain ⟨hih, hjw, hone⟩ := (filledCells_mem s i j).mp hrcmem
    have hcast1 : (r : Int) + (i : Int) = ((r + i : Nat) : Int) := by
      push_cast; ring
    have hcast2 : (c : Int) + (j : Int) = ((c + j : Nat) : Int) := by
      push_cast; ring
    have hanchor : isAnchorB b pv (r + i) (c + j) = true := by
      rw [isAnchorB, Bool.and_eq_true, Bool.and_eq_true]
      refine ⟨⟨?_, ?_⟩, ?_⟩
      · rw [noOverlapB, List.all_eq_true] at hov
        exact hov (i, j) hrcmem
      · rw [← hcast1, ← hcast2]
        exact hdiag
      · rw [touchesSideB] at hts
        rw [Bool.not_eq_true']
        by_contra hside
        rw [Bool.not_eq_false] at hside
        have hany : (filledCells s).any (fun rc =>
            (sideNeighbors ((r : Int) + rc.1) ((c : Int) + rc.2)).any
              (ownAt b pv)) = true := by
          rw [List.any_eq_true]
          exact ⟨(i, j), hrcmem, by rw [hcast1, hcast2]; exact hside⟩
        rw [hany] at hts
        exact absurd hts (by simp)
    exact ⟨i, j, hih, hjw, hone,
      (getPlayerCorners_mem b pv _ _).mpr ⟨by omega, by omega, hanchor⟩⟩

theorem canPlayerMove_unfold (g : Game) (i : Nat) (p : Player)
    (hp : g.players.get? i = some p) :
    canPlayerMove g i =
      (if p.pieces.length = 0 then false
       else if p.firstMove then
         (boardCornersList g.board).any (fun corner =>
           p.pieces.any (fun piece =>
             (orientationTrials piece.shape).any (fun ts =>
               isValidPlacement g.board ts (corner.1 : Int) (corner.2 : Int)
                 p.color true == some true)))
       else
         if (getPlayerCorners g.board p.color).isEmpty then false
         else
           (getPlayerCorners g.board p.color).any (fun anchor =>
             p.pieces.any (fun piece =>
               (orientationTrials piece.shape).any (fun ts =>
                 (List.range (shapeH ts)).any (fun ro =>
                   (List.range (shapeW ts)).any (fun co =>
                     let posr : Int := (anchor.1 : Int) - (ro : Int)
                     let posc : Int := (anchor.2 : Int) - (co : Int)
                     if posr < 0 ∨ posc < 0 then false
                     else isValidPlacement g.board ts posr posc p.color
                       false == some true)))))) := by
  rw [canPlayerMove, hp]

/-- Completeness of `_can_player_move`: when it reports False for a seat of a
reachable game (monomino still in hand on a first move, catalog-shaped
pieces, 20×20 board), no piece of that seat has any accepted placement in
any `make_move` orientation at any non-negative position. -/
theorem canPlayerMove_complete (g : Game) (i : Nat) (p : Player)
    (hp : g.players.get? i = some p)
    (hsize : g.board.size = 20)
    (hmono : p.firstMove = true → (⟨[[1]], "1"⟩ : Piece) ∈ p.pieces)
    (hrect : ∀ piece ∈ p.pieces,
      isRectB piece.shape = true ∧ 0 < shapeW piece.shape)
    (hcan : canPlayerMove g i = false) :
    ∀ piece ∈ p.pieces, ∀ (f : Bool) (k : Nat), k ≤ 3 → ∀ (r c : Nat),
      isValidPlacement g.board (applyTransforms piece.shape (k : Int) f)
        (r : Int) (c : Int) p.color p.firstMove = some false := by
  intro piece hpiece f k hk r c
  rw [isValidPlacement_nat]
  by_contra hne
  have hB : isValidPlacementB g.board (applyTransforms piece.shape (k : Int) f)
      r c p.color p.firstMove = true := by
    cases hBv : isValidPlacementB g.board
        (applyTransforms piece.shape (k : Int) f) r c p.color p.firstMove with
    | false => rw [hBv] at hne; exact absurd rfl hne
    | true => rfl
  clear hne
  have hmem : applyTransforms piece.shape (k : Int) f ∈
      orientationTrials piece.shape :=
    applyTransforms_mem_trials _ (hrect piece hpiece).1 (hrect piece hpiece).2
      k hk f
  rw [canPlayerMove_unfold g i p hp] at hcan
  rw [if_neg (by
    intro h0
    rw [List.length_eq_zero] at h0
    rw [h0] at hpiece
    cases hpiece)] at hcan
  cases hfm : p.firstMove with
  | true =>
    rw [hfm] at hcan hB
    rw [if_pos rfl] at hcan
    obtain ⟨hfit, hov, hcc⟩ :=
      validB_decomp_first g.board _ r c p.color hB
    rw [coversCornerB, List.any_eq_true] at hcc
    obtain ⟨⟨i0, j0⟩, hmemf, hq'⟩ := hcc
    rw [List.any_eq_true] at hq'
    obtain ⟨q, hq, heq⟩ := hq'
    rw [Bool.and_eq_true, beq_iff_eq, beq_iff_eq] at heq
    obtain ⟨heq1, heq2⟩ := heq
    have hq1 : r + i0 = q.1 := by omega
    have hq2 : c + j0 = q.2 := by omega
    have hempty : g.board.grid q.1 q.2 = 0 := by
      rw [noOverlapB, List.all_eq_true] at hov
      have := hov (i0, j0) hmemf
      rw [beq_iff_eq] at this
      rw [← hq1, ← hq2]
      exact this
    have hqlt : q.1 < g.board.size ∧ q.2 < g.board.size := by
      have h20 : (0 : Nat) < g.board.size := by rw [hsize]; omega
      simp only [boardCornersList, List.mem_cons, List.mem_singleton,
        List.not_mem_nil, or_false] at hq
      rcases hq with rfl | rfl | rfl | rfl <;> constructor <;> simp <;> omega
    -- the monomino is a valid first placement at that corner
    have hmB : isValidPlacementB g.board [[1]] q.1 q.2 p.color true = true := by
      rw [isValidPlacementB, if_pos rfl, Bool.and_eq_true, Bool.and_eq_true]
      refine ⟨?_, ?_, ?_⟩
      · refine (fitsB_nat_iff g.board [[1]] q.1 q.2).mpr ⟨?_, ?_⟩ <;>
          simp [shapeH, shapeW] <;> omega
      · rw [noOverlapB, show filledCells [[1]] = [(0, 0)] from rfl]
        simp [hempty]
      · rw [coversCornerB, show filledCells [[1]] = [(0, 0)] from rfl,
          List.any_eq_true]
        refine ⟨(0, 0), by simp, ?_⟩
        rw [List.any_eq_true]
        exact ⟨q, hq, by simp⟩
    have hmv : isValidPlacement g.board [[1]] ((q.1 : Nat) : Int)
        ((q.2 : Nat) : Int) p.color true = some true := by
      rw [isValidPlacement_nat, hmB]
    have htrue : (boardCornersList g.board).any (fun corner =>
        p.pieces.any (fun piece =>
          (orientationTrials piece.shape).any (fun ts =>
            isValidPlacement g.board ts (corner.1 : Int) (corner.2 : Int)
              p.color true == some true))) = true := by
      rw [List.any_eq_true]
      refine ⟨q, hq, ?_⟩
      rw [List.any_eq_true]
      refine ⟨⟨[[1]], "1"⟩, hmono hfm, ?_⟩
      rw [List.any_eq_true]
      refine ⟨[[1]], by decide, ?_⟩
      rw [beq_iff_eq]
      exact hmv
    rw [htrue] at hcan
    cases hcan
  | false =>
    rw [hfm] at hcan hB
    rw [if_neg (Bool.false_ne_true)] at hcan
    obtain ⟨i0, j0, hi0, hj0, hone, hmemc⟩ :=
      validB_anchor g.board _ p.color r c hB
    have hnotempty : (getPlayerCorners g.board p.color).isEmpty = false := by
      cases hemp : (getPlayerCorners g.board p.color).isEmpty with
      | false => rfl
      | true =>
        rw [List.isEmpty_iff] at hemp
        rw [hemp] at hmemc
        cases hmemc
    rw [hnotempty, if_neg (Bool.false_ne_true)] at hcan
    have htrue : (getPlayerCorners g.board p.color).any (fun anchor =>
        p.pieces.any (fun piece =>
          (orientationTrials piece.shape).any (fun ts =>
            (List.range (shapeH ts)).any (fun ro =>
              (List.range (shapeW ts)).any (fun co =>
                let posr : Int := (anchor.1 : Int) - (ro : Int)
                let posc : Int := (anchor.2 : Int) - (co : Int)
                if posr < 0 ∨ posc < 0 then false
                else isValidPlacement g.board ts posr posc p.color
                  false == some true))))) = true := by
      rw [List.any_eq_true]
      refine ⟨(r + i0, c + j0), hmemc, ?_⟩
      rw [List.any_eq_true]
      refine ⟨piece, hpiece, ?_⟩
      rw [List.any_eq_true]
      refine ⟨applyTransforms piece.shape (k : Int) f, hmem, ?_⟩
      rw [List.any_eq_true]
      refine ⟨i0, by simpa using hi0, ?_⟩
      rw [List.any_eq_true]
      refine ⟨j0, by simpa using hj0, ?_⟩
      have hposr : (((r + i0 : Nat) : Int)) - (i0 : Int) = (r : Int) := by
        push_cast; ring
      have hposc : (((c + j0 : Nat) : Int)) - (j0 : Int) = (c : Int) := by
        push_cast; ring
      simp only
      rw [hposr, hposc]
      rw [if_neg (by push_cast; omega)]
      rw [beq_iff_eq]
      rw [isValidPlacement_nat, hB]
    rw [htrue] at hcan
    cases hcan

theorem nextPlayerAux_players (fuel : Nat) :
    ∀ (g : Game) (orig : Nat), (nextPlayerAux g orig fuel).players = g.players := by
  induction fuel with
  | zero => intro g orig; rfl
  | succ fuel ih =>
    intro g orig
    simp only [nextPlayerAux]
    split
    · rfl
    · exact ih _ orig

theorem nextPlayerAux_gameOver_inv (fuel : Nat) :
    ∀ (g : Game) (orig : Nat), (nextPlayerAux g orig fuel).gameOver = true →
      g.gameOver = true ∨
        ∀ k, 1 ≤ k → k ≤ fuel →
          canPlayerMove g ((g.currentPlayerIdx + k) % g.players.length) = false := by
  induction fuel with
  | zero =>
    intro g orig _
    right
    intro k h1 h2
    omega
  | succ fuel ih =>
    intro g orig h
    simp only [nextPlayerAux] at h
    split at h
    · left
      exact h
    · rename_i hcm
      rw [Bool.not_eq_true] at hcm
      rw [canPlayerMove_idx] at hcm
      rcases ih _ orig h with hl | hr
      · left
        exact hl
      · right
        intro k h1 h2
        by_cases hk1 : k = 1
        · subst hk1
          exact hcm
        · have := hr (k - 1) (by omega) (by omega)
          rw [canPlayerMove_idx] at this
          rw [mod_shift] at this
          have hke : k - 1 + 1 = k := by omega
          rw [hke] at this
          exact this

theorem residue_coverage (n idx : Nat) (P : Nat → Prop)
    (h : ∀ k, 1 ≤ k → k ≤ n → P ((idx + k) % n)) : ∀ i, i < n → P i := by
  intro i hi
  have hn : 0 < n := by omega
  have hmlt : idx % n < n := Nat.mod_lt idx hn
  by_cases hc : idx % n < i
  · have hk := h (i - idx % n) (by omega) (by omega)
    have heq : (idx + (i - idx % n)) % n = i := by
      rw [← Nat.mod_add_mod]
      have h2 : idx % n + (i - idx % n) = i := by omega
      rw [h2, Nat.mod_eq_of_lt hi]
    rw [heq] at hk
    exact hk
  · have hk := h (n - idx % n + i) (by omega) (by omega)
    have heq : (idx + (n - idx % n + i)) % n = i := by
      rw [← Nat.mod_add_mod]
      have h2 : idx % n + (n - idx % n + i) = n + i := by omega
      rw [h2, Nat.add_mod_left, Nat.mod_eq_of_lt hi]
    rw [heq] at hk
    exact hk

theorem canPlayerMove_congr (g h : Game) (i : Nat) (hb : g.board = h.board)
    (hpl : g.players = h.players) :
    canPlayerMove g i = canPlayerMove h i := by
  simp only [canPlayerMove, hb, hpl]

/-- Failure result of `make_move` leaves the state unchanged (proof shared
with claim C4). -/
theorem makeMove_failure_state (g : Game) (pieceIdx : Int) (pos : Int × Int)
    (rotation : Int) (flip : Bool) (g' : Game) (msg : Msg)
    (h : makeMove g pieceIdx pos rotation flip = some (g', false, msg)) :
    g' = g := by
  rw [makeMove] at h
  split at h
  · simp only [Option.some.injEq, Prod.mk.injEq] at h
    exact h.1.symm
  · split at h
    · cases h
    · simp only [Option.some.injEq, Prod.mk.injEq] at h
      exact h.1.symm
    · split at h
      · cases h
      · split at h
        · simp only [Option.some.injEq, Prod.mk.injEq] at h
          exact h.1.symm
        · dsimp only at h
          split at h
          · cases h
          · simp only [Option.some.injEq, Prod.mk.injEq] at h
            exact absurd h.2.1 (by simp)

theorem makeMove_success_inv (g : Game) (pieceIdx : Int) (pos : Int × Int)
    (rotation : Int) (flip : Bool) (g' : Game) (msg : Msg)
    (h : makeMove g pieceIdx pos rotation flip = some (g', true, msg)) :
    g.gameOver = false ∧
      ∃ player piece b', getCurrentPlayer g = some player ∧
        getPiece player pieceIdx = some piece ∧
        isValidPlacement g.board (applyTransforms piece.shape rotation flip)
          pos.1 pos.2 player.color player.firstMove = some true ∧
        placePiece g.board (applyTransforms piece.shape rotation flip)
          pos.1 pos.2 player.color = some b' ∧
        g' = nextPlayer { g with
          board := b'
          players := g.players.set g.currentPlayerIdx
            { removePiece player pieceIdx with firstMove := false }
          moveHistory := g.moveHistory ++
            [⟨player.playerId, piece.pieceId, pos, rotation, flip⟩]
          turnsPlayed := g.turnsPlayed + 1 } := by
  rw [makeMove] at h
  split at h
  · simp only [Option.some.injEq, Prod.mk.injEq] at h
    exact absurd h.2.1 (by simp)
  · rename_i hgo
    rw [Bool.not_eq_true] at hgo
    refine ⟨hgo, ?_⟩
    split at h
    · cases h
    · simp only [Option.some.injEq, Prod.mk.injEq] at h
      exact absurd h.2.1 (by simp)
    · rename_i hvalid
      split at h
      · cases h
      · rename_i player hplayer
        split at h
        · simp only [Option.some.injEq, Prod.mk.injEq] at h
          exact absurd h.2.1 (by simp)
        · rename_i piece hpiece
          dsimp only at h
          split at h
          · cases h
          · rename_i b' hplace
            simp only [Option.some.injEq, Prod.mk.injEq] at h
            obtain ⟨player', piece', hp', hpc', hival⟩ :=
              isValidMove_true_placement g pieceIdx pos rotation flip hvalid
            rw [hplayer] at hp'
            cases hp'
            rw [hpiece] at hpc'
            cases hpc'
            exact ⟨player, piece, b', hplayer, hpiece, hival, hplace, h.1.symm⟩

/-- The facts about reachable game states that the termination claim
rests on: the board stays 20×20; a player who still has their first move
ahead holds the full catalog (in particular the monomino); every inventory
piece is a (rectangular, nonempty) catalog matrix; and when the game is
over, the turn scan has established that no seat can move. -/
def GameInv (g : Game) : Prop :=
  g.board.size = 20 ∧
    (∀ p ∈ g.players, p.firstMove = true → (⟨[[1]], "1"⟩ : Piece) ∈ p.pieces) ∧
    (∀ p ∈ g.players, ∀ piece ∈ p.pieces,
      isRectB piece.shape = true ∧ 0 < shapeW piece.shape) ∧
    (g.gameOver = true → ∀ i, i < g.players.length → canPlayerMove g i = false)

theorem initGame_inv (n : Int) : GameInv (initGame n) := by
  refine ⟨rfl, ?_, ?_, ?_⟩
  · intro p hp _
    simp only [initGame, List.mem_map, List.mem_range] at hp
    obtain ⟨i, _, rfl⟩ := hp
    show (⟨[[1]], "1"⟩ : Piece) ∈
      standardPieceShapes.map (fun e => ⟨e.2, e.1⟩)
    decide
  · intro p hp piece hpiece
    simp only [initGame, List.mem_map, List.mem_range] at hp
    obtain ⟨i, _, rfl⟩ := hp
    have hall : ∀ pc ∈ standardPieceShapes.map
        (fun e => (⟨e.2, e.1⟩ : Piece)),
        isRectB pc.shape = true ∧ 0 < shapeW pc.shape := by decide
    exact hall piece hpiece
  · intro hgo
    cases hgo

theorem gameInv_step (g : Game) (pieceIdx : Int) (pos : Int × Int)
    (rotation : Int) (flip : Bool) (out : Game × Bool × Msg)
    (hinv : GameInv g) (h : makeMove g pieceIdx pos rotation flip = some out) :
    GameInv out.1 := by
  obtain ⟨g', ok, msg⟩ := out
  cases ok with
  | false =>
    have := makeMove_failure_state g pieceIdx pos rotation flip g' msg h
    show GameInv g'
    rw [this]
    exact hinv
  | true =>
    obtain ⟨hgo, player, piece, b', hplayer, hpiece, hival, hplace, hg'⟩ :=
      makeMove_success_inv g pieceIdx pos rotation flip g' msg h
    obtain ⟨hsize, hmono, hrect, _⟩ := hinv
    have hplmem : player ∈ g.players := List.get?_mem hplayer
    have hov := isValidPlacement_true_overlap _ _ _ _ _ _ hival
    have hpres := placePiece_preserves _ _ _ _ _ _ hov hplace
    have hb' : g'.board = b' := by
      rw [hg', nextPlayer, nextPlayerAux_board]
    have hps : g'.players = g.players.set g.currentPlayerIdx
        { removePiece player pieceIdx with firstMove := false } := by
      rw [hg', nextPlayer, nextPlayerAux_players]
    show GameInv g'
    refine ⟨?_, ?_, ?_, ?_⟩
    · rw [hb', hpres.1]
      exact hsize
    · intro p hp hfm
      rw [hps] at hp
      rcases List.mem_or_eq_of_mem_set hp with hmem | heq
      · exact hmono p hmem hfm
      · rw [heq] at hfm
        simp at hfm
    · intro p hp piece' hpiece'
      rw [hps] at hp
      rcases List.mem_or_eq_of_mem_set hp with hmem | heq
      · exact hrect p hmem piece' hpiece'
      · have hsub : piece' ∈ player.pieces := by
          rw [heq] at hpiece'
          have hpm : piece' ∈ (removePiece player pieceIdx).pieces := hpiece'
          rw [removePiece] at hpm
          split at hpm
          · exact List.eraseIdx_subset _ _ hpm
          · exact hpm
        exact hrect player hplmem piece' hsub
    · intro hgo' i hi
      rw [hg', nextPlayer] at hgo'
      rcases nextPlayerAux_gameOver_inv _ _ _ hgo' with hl | hr
      · have hgl : g.gameOver = true := hl
        rw [hgo] at hgl
        cases hgl
      · have hall : ∀ j, j < ({ g with
            board := b'
            players := g.players.set g.currentPlayerIdx
              { removePiece player pieceIdx with firstMove := false }
            moveHistory := g.moveHistory ++
              [⟨player.playerId, piece.pieceId, pos, rotation, flip⟩]
            turnsPlayed := g.turnsPlayed + 1 } : Game).players.length →
            canPlayerMove { g with
              board := b'
              players := g.players.set g.currentPlayerIdx
                { removePiece player pieceIdx with firstMove := false }
              moveHistory := g.moveHistory ++
                [⟨player.playerId, piece.pieceId, pos, rotation, flip⟩]
              turnsPlayed := g.turnsPlayed + 1 } j = false := by
          exact residue_coverage _ _ _ (fun k h1 h2 => hr k h1 h2)
        have hcongr : canPlayerMove g' i = canPlayerMove { g with
            board := b'
            players := g.players.set g.currentPlayerIdx
              { removePiece player pieceIdx with firstMove := false }
            moveHistory := g.moveHistory ++
              [⟨player.playerId, piece.pieceId, pos, rotation, flip⟩]
            turnsPlayed := g.turnsPlayed + 1 } i := by
          apply canPlayerMove_congr
          · rw [hg', nextPlayer, nextPlayerAux_board]
          · rw [hg', nextPlayer, nextPlayerAux_players]
        rw [hcongr]
        refine hall i ?_
        have hlen : g'.players.length = (g.players.set g.currentPlayerIdx
            { removePiece player pieceIdx with firstMove := false }).length := by
          rw [hps]
        rw [hlen] at hi
        exact hi

theorem reach_inv (n : Int) (g : Game) (h : ReachFrom (initGame n) g) :
    GameInv g := by
  induction h with
  | refl => exact initGame_inv n
  | tail hab hbc ih =>
    cases hbc with
    | mk pieceIdx pos rotation flip out hmv =>
      exact gameInv_step _ pieceIdx pos rotation flip out ih hmv

/-- C3: the game never becomes terminal while a legal placement remains.
In every game state reachable by `make_move` calls from a fresh game, if
`game_over` is set, then for every player, every piece still in their
inventory, every orientation (`rotation ∈ [0,3]` then an optional flip, as
`make_move` applies them) and every non-negative top-left position, the
placement check with that player's colour and first-move flag rejects. -/
theorem claim_C3_terminal_state_no_moves (n : Int) (g : Game)
    (hreach : ReachFrom (initGame n) g) (hover : g.gameOver = true) :
    ∀ p ∈ g.players, p.pieces ≠ [] → ∀ piece ∈ p.pieces, ∀ (f : Bool) (k : Nat),
      k ≤ 3 → ∀ (r c : Nat),
      isValidPlacement g.board (applyTransforms piece.shape (k : Int) f)
        (r : Int) (c : Int) p.color p.firstMove = some false := by
  obtain ⟨hsize, hmono, hrect, hterm⟩ := reach_inv n g hreach
  intro p hp hne piece hpiece f k hk r c
  obtain ⟨i, hgeti⟩ := List.mem_iff_get?.mp hp
  have hilt : i < g.players.length := by
    by_contra hge
    rw [Nat.not_lt] at hge
    rw [List.get?_eq_none.mpr hge] at hgeti
    cases hgeti
  have hcan := hterm hover i hilt
  exact canPlayerMove_complete g i p hgeti hsize (hmono p hp)
    (fun pc hpc => hrect p hp pc hpc) hcan piece hpiece f k hk r c

/-- Run a list of move requests in order, stopping on an exception. -/
def runScript : Game → List (Int × (Int × Int) × Int × Bool) → Option Game
  | g, [] => some g
  | g, m :: rest =>
    match makeMove g m.1 m.2.1 m.2.2.1 m.2.2.2 with
    | none => none
    | some out => runScript out.1 rest

theorem reach_of_run : ∀ (moves : List (Int × (Int × Int) × Int × Bool))
    (g g' : Game), runScript g moves = some g' → ReachFrom g g' := by
  intro moves
  induction moves with
  | nil =>
    intro g g' h
    cases h
    exact Relation.ReflTransGen.refl
  | cons m rest ih =>
    intro g g' h
    rw [runScript] at h
    split at h
    · cases h
    · rename_i out hout
      exact Relation.ReflTransGen.head
        (Step.mk g m.1 m.2.1 m.2.2.1 m.2.2.2 out hout) (ih _ _ h)

theorem opt_eq_getD {α : Type} (o : Option α) (d : α) (h : o.isSome = true) :
    o = some (o.getD d) := by
  cases o with
  | none => cases h
  | some a => rfl

/-- A full two-player play-through ending in a terminal state: player 1's
first move exploits the wrap-around indexing (O4 at (-1,-1) occupies all
four board corners, so player 2 can never satisfy the first-move corner
rule), then player 1 plays out their remaining 20 pieces and the final turn
scan finds no seat able to move. -/
def moveScript : List (Int × (Int × Int) × Int × Bool) :=
  [(7, (-1, -1), 0, false),
   (1, (1, 1), 0, false),
   (1, (0, 3), 0, false),
   (1, (0, 17), 0, false),
   (1, (1, 6), 0, false),
   (1, (0, 15), 0, false),
   (1, (0, 10), 0, false),
   (1, (2, 3), 0, false),
   (1, (3, 6), 0, false),
   (1, (2, 0), 0, false),
   (1, (2, 12), 0, false),
   (1, (2, 18), 0, false),
   (1, (6, 2), 0, false),
   (1, (6, 10), 0, false),
   (1, (4, 5), 0, false),
   (1, (4, 15), 0, false),
   (1, (8, 4), 0, false),
   (1, (6, 14), 0, false),
   (1, (8, 7), 0, false),
   (1, (8, 12), 0, false),
   (0, (0, 13), 0, false)]

/-- The terminal game reached by `moveScript`. -/
def finalG : Game := (runScript (initGame 2) moveScript).getD (initGame 2)

set_option maxHeartbeats 40000000 in
theorem runScript_eq : runScript (initGame 2) moveScript = some finalG :=
  opt_eq_getD _ _ (by rfl)

set_option maxHeartbeats 40000000 in
theorem finalG_facts : finalG.gameOver = true ∧
    finalG.players.get? 1 = some (initPlayer 2 2) := by
  constructor <;> rfl

/-- Witness for C3 at the scripted terminal game: player 2 still holds all
21 pieces, yet the monomino (untransformed) at (5, 5) is rejected. -/
theorem claim_C3_terminal_state_no_moves_witness :
    isValidPlacement finalG.board
      (applyTransforms [[1]] ((0 : Nat) : Int) false) ((5 : Nat) : Int)
      ((5 : Nat) : Int) (initPlayer 2 2).color (initPlayer 2 2).firstMove
      = some false :=
  claim_C3_terminal_state_no_moves 2 finalG
    (reach_of_run moveScript (initGame 2) finalG runScript_eq)
    finalG_facts.1
    (initPlayer 2 2) (List.get?_mem finalG_facts.2)
    (by decide)
    ⟨[[1]], "1"⟩ (by decide)
    false 0 (by decide) 5 5

end Blokus
